import Mathlib

/-!
Verification development for the IDA* pathfinding core of RouteMaster
(`src/finders/IDAStarFinder.js`).

The finder is embedded shallowly: the recursive `search` function and the
cutoff-escalation loop of `findPath` become fuel-indexed Lean functions over
an abstract linearly ordered field `α` of "JS numbers", with `Option` used
for fuel exhaustion (the JS code has no such bound; `none` never corresponds
to a real behaviour, it only marks that the chosen fuel was too small) and
`WithTop α` playing the role of the `Infinity` sentinel.

The Grid, Node, Heuristic and DiagonalMovement collaborators that the finder
`require`s live outside the repository snapshot; per the specification they
are external collaborators.  They are modelled from the spec as parameters of
the finder configuration: a deterministic neighbour function (the spec's
`neighborsOf(node, diagonalPolicy)`, with the policy already applied), a node
lookup (`nodeAt`), and a pure heuristic on absolute coordinate deltas.
Wall-clock time is modelled by an abstract monotone-in-spirit function from
the number of `visitedNode` increments to elapsed milliseconds.
-/

/-- Modelled from the spec: a Node is an integer coordinate pair `(x, y)`
(the walkability and neighbour structure live in the grid's neighbour
function). -/
structure Node where
  x : Int
  y : Int
deriving DecidableEq, Repr, Inhabited

/-- Search result of one `search` call: either a found route (the JS code
returns the goal `Node` and fills the `route` array as the recursion
unwinds; we return the unwound route itself), or a numeric bound, where
`⊤` stands for the JS `Infinity` sentinel. -/
inductive SRes (α : Type) where
  | found : List Node → SRes α
  | bound : WithTop α → SRes α
deriving DecidableEq

/-- The mutable state threaded through one `findPath` call: the
`visitedNode` counter and, per node, the `retainCount` / `tested`
instrumentation fields. -/
structure SState where
  clock : Nat
  instr : Node → Nat × Bool

/-- The finder object of `IDAStarFinder.js` after constructor resolution,
together with the modelled external collaborators.
`heuristic` takes the two absolute coordinate deltas (modelled from the
spec: a pure function on nonnegative deltas).  `timeLimit` is the resolved
`this.timeLimit`, with `none` standing for `Infinity` (no limit).
`getNeighbors` and `getNodeAt` are modelled from the spec's Grid contract.
`sqrt2` is the value of `Math.SQRT2` in the number model.  `elapsedAt`
models the wall clock: elapsed milliseconds when the `visitedNode` counter
has the given value. -/
structure IDAStarFinder (α : Type) where
  heuristic : Nat → Nat → α
  weight : α
  trackRecursion : Bool
  timeLimit : Option α
  getNeighbors : Node → List Node
  getNodeAt : Int → Int → Node
  sqrt2 : α
  elapsedAt : Nat → α

variable {α : Type} [LinearOrderedCommRing α]

/-- The heuristic wrapper `h(a, b)` of `findPath` (lines 78-80):
`heuristic(abs(b.x - a.x), abs(b.y - a.y))`. -/
def hF (cfg : IDAStarFinder α) (a b : Node) : α :=
  cfg.heuristic (b.x - a.x).natAbs (b.y - a.y).natAbs

/-- The step cost function `cost(a, b)` of `findPath` (lines 82-84):
`1` for an orthogonal move, `Math.SQRT2` for a diagonal one. -/
def stepCost (cfg : IDAStarFinder α) (a b : Node) : α :=
  if a.x = b.x ∨ a.y = b.y then 1 else cfg.sqrt2

/-- The time-limit check of `search` (lines 102-103):
`timeLimit > 0 && now - startTime > timeLimit * 1000`, with the elapsed
wall clock modelled as a function of the `visitedNode` counter. -/
def timeExpired (cfg : IDAStarFinder α) (clock : Nat) : Bool :=
  match cfg.timeLimit with
  | none => false
  | some t => decide (0 < t) && decide (t * 1000 < cfg.elapsedAt clock)

/-- Entering a recursive call for a neighbour with `trackRecursion` on
(lines 122-127): `retainCount = retainCount + 1 || 1` and `tested = true`. -/
def bump (i : Node → Nat × Bool) (v : Node) : Node → Nat × Bool :=
  fun w => if w = v then ((i v).1 + 1, true) else i w

/-- Returning from a recursive call for a neighbour with `trackRecursion`
on (line 136): `--retainCount`, and `tested = false` exactly when the
decremented count is `0`. -/
def unbump (i : Node → Nat × Bool) (v : Node) : Node → Nat × Bool :=
  fun w =>
    if w = v then ((i v).1 - 1, if (i v).1 - 1 = 0 then false else (i v).2)
    else i w

/-- The neighbour loop of `search` (lines 114-142).  `deeper` is the
recursive call at one level less fuel; `minB` is the running `min`
(initially `Infinity`); the loop stops early when a recursive call returns
a found node, in which case the current frame records its own node in
front of the route (line 132). -/
def searchNbrs (cfg : IDAStarFinder α) (node : Node) (g : α)
    (deeper : Node → α → SState → Option (SRes α × SState)) :
    List Node → WithTop α → SState → Option (SRes α × SState)
  | [], minB, st => some (.bound minB, st)
  | nb :: rest, minB, st =>
    let st1 : SState :=
      if cfg.trackRecursion then ⟨st.clock, bump st.instr nb⟩ else st
    match deeper nb (g + stepCost cfg node nb) st1 with
    | none => none
    | some (.found r, st2) => some (.found (node :: r), st2)
    | some (.bound b, st2) =>
      let st3 : SState :=
        if cfg.trackRecursion then ⟨st2.clock, unbump st2.instr nb⟩ else st2
      searchNbrs cfg node g deeper rest (if b < minB then b else minB) st3

/-- The recursive bounded depth-first expansion `search` of `findPath`
(lines 99-143), fuel-indexed.  In order: `visitedNode++`; the time check
(returning `Infinity`); `f = g + h(node, end) * weight` with the cutoff
test (returning `f`); the goal test (returning the route, which unwinds to
the full path); the neighbour loop. -/
def search (cfg : IDAStarFinder α) (endN : Node) (cutoff : α) :
    Nat → Node → α → SState → Option (SRes α × SState)
  | 0, _, _, _ => none
  | fuel + 1, node, g, st =>
    let st1 : SState := ⟨st.clock + 1, st.instr⟩
    if timeExpired cfg st1.clock then some (.bound ⊤, st1)
    else
      let f := g + hF cfg node endN * cfg.weight
      if cutoff < f then some (.bound (f : WithTop α), st1)
      else if node = endN then some (.found [node], st1)
      else
        searchNbrs cfg node g
          (fun nb g1 st2 => search cfg endN cutoff fuel nb g1 st2)
          (cfg.getNeighbors node) ⊤ st1

/-- The initial cutoff of `findPath` (line 148): `cutoff = h(start, end)`. -/
def initialCutoff (cfg : IDAStarFinder α) (s e : Node) : α :=
  hF cfg s e

/-- The outer cutoff-escalation loop of `findPath` (lines 150-160),
fuel-indexed over the number of sweeps: run one sweep; `Infinity` yields
the empty path, a found node yields the reconstructed route, and a finite
bound becomes the next cutoff. -/
def findPathAux (cfg : IDAStarFinder α) (endN : Node) (f2 : Nat) :
    Nat → Node → α → SState → Option (List Node × SState)
  | 0, _, _, _ => none
  | f1 + 1, startN, cutoff, st =>
    match search cfg endN cutoff f2 startN 0 st with
    | none => none
    | some (.found r, st1) => some (r, st1)
    | some (.bound b, st1) =>
      if b = ⊤ then some ([], st1)
      else findPathAux cfg endN f2 f1 startN (b.untop' 0) st1

/-- `findPath(startX, startY, endX, endY, grid)` (lines 72-163): resolve
the two nodes, start from `cutoff = h(start, end)` with a fresh
`visitedNode` counter and fresh instrumentation, and run the sweep loop.
`f1` bounds the number of sweeps and `f2` the recursion depth of each
sweep (the JS loop is unbounded; `none` only means the fuel ran out). -/
def findPath (cfg : IDAStarFinder α) (sx sy ex ey : Int) (f1 f2 : Nat) :
    Option (List Node × SState) :=
  let s := cfg.getNodeAt sx sy
  let e := cfg.getNodeAt ex ey
  findPathAux cfg e f2 f1 s (initialCutoff cfg s e) ⟨0, fun _ => (0, false)⟩

/-- The successive cutoff values used by the sweeps of `findPathAux`,
in order: the recursion mirrors `findPathAux` sweep by sweep. -/
def cutoffTrace (cfg : IDAStarFinder α) (endN : Node) (f2 : Nat) :
    Nat → Node → α → SState → List α
  | 0, _, _, _ => []
  | f1 + 1, startN, cutoff, st =>
    cutoff ::
      (match search cfg endN cutoff f2 startN 0 st with
      | some (.bound b, st1) =>
        if b = ⊤ then []
        else cutoffTrace cfg endN f2 f1 startN (b.untop' 0) st1
      | _ => [])

/-- The list of cutoffs used by a `findPath` call, starting from the
initial `h(start, end)`. -/
def findPathCutoffs (cfg : IDAStarFinder α) (sx sy ex ey : Int)
    (f1 f2 : Nat) : List α :=
  let s := cfg.getNodeAt sx sy
  let e := cfg.getNodeAt ex ey
  cutoffTrace cfg e f2 f1 s (initialCutoff cfg s e) ⟨0, fun _ => (0, false)⟩

/-- Boolean check that every consecutive pair of a route steps to a grid
neighbour (the spec's adjacency under the configured diagonal policy). -/
def stepsB (cfg : IDAStarFinder α) : List Node → Bool
  | a :: b :: rest => decide (b ∈ cfg.getNeighbors a) && stepsB cfg (b :: rest)
  | _ => true

/-- Every consecutive pair of a route steps to a grid neighbour. -/
def ValidSteps (cfg : IDAStarFinder α) (p : List Node) : Prop :=
  stepsB cfg p = true

/-- A route from `s` to `e`: nonempty, starts at `s`, ends at `e`, and
each step goes to a neighbour. -/
def ValidPath (cfg : IDAStarFinder α) (s e : Node) (p : List Node) : Prop :=
  p.head? = some s ∧ p.getLast? = some e ∧ ValidSteps cfg p

instance (cfg : IDAStarFinder α) (s e : Node) (p : List Node) :
    Decidable (ValidPath cfg s e p) :=
  inferInstanceAs (Decidable (_ ∧ _ ∧ _ = true))

/-- Total cost of a route: the sum of `stepCost` over consecutive pairs. -/
def pathCost (cfg : IDAStarFinder α) : List Node → α
  | a :: b :: rest => stepCost cfg a b + pathCost cfg (b :: rest)
  | _ => 0

/-- The heuristic of the finder is admissible for a goal node: it never
exceeds the cost of any route to the goal. -/
def Admissible (cfg : IDAStarFinder α) (endN : Node) : Prop :=
  ∀ v p, ValidPath cfg v endN p → hF cfg v endN ≤ pathCost cfg p

/-- The maximum `f = g + h(v, end) * weight` value over the prefixes of a
route whose start is reached with accumulated cost `g`. -/
def maxF (cfg : IDAStarFinder α) (endN : Node) : α → List Node → α
  | g, [] => g
  | g, [v] => g + hF cfg v endN * cfg.weight
  | g, v :: w :: rest =>
    max (g + hF cfg v endN * cfg.weight)
      (maxF cfg endN (g + stepCost cfg v w) (w :: rest))

/-- A route from `s` stored in reverse (head = current endpoint): it ends
at `s` and each consecutive pair `(a, b)` has `a` a neighbour of `b`. -/
def RevPath (cfg : IDAStarFinder α) (s : Node) (r : List Node) : Prop :=
  r.getLast? = some s ∧ List.Chain' (fun a b => a ∈ cfg.getNeighbors b) r

/-- All reversed routes from `s` of length at most `m + 1`, enumerated by
repeatedly prepending a neighbour of the current endpoint. -/
def rpaths (cfg : IDAStarFinder α) (s : Node) : Nat → Finset (List Node)
  | 0 => {[s]}
  | m + 1 =>
    rpaths cfg s m ∪
      (rpaths cfg s m).biUnion
        (fun r => ((cfg.getNeighbors r.headI).map (fun w => w :: r)).toFinset)

/-- The finite set of `f`-values of reversed routes from `s` of length at
most `m + 1`; every finite bound a sweep can return lives here. -/
def fvals (cfg : IDAStarFinder α) (s endN : Node) (m : Nat) : Finset α :=
  (rpaths cfg s m).image
    (fun r => pathCost cfg r + hF cfg r.headI endN * cfg.weight)

/-- Invariant of the instrumentation map: `tested` holds exactly when
`retainCount` is nonzero. -/
def InstrInv (i : Node → Nat × Bool) : Prop :=
  ∀ v, (i v).2 = decide ((i v).1 ≠ 0)

/-- The constructor's time-limit resolution (line 42):
`this.timeLimit = opt.timeLimit || Infinity` — a `0` (falsy) becomes
`Infinity` (`none`); any other value is kept. -/
def resolveTimeLimit (t : α) : Option α :=
  if t = 0 then none else some t

/-- Modelled from the spec: the Manhattan-distance heuristic of the
Heuristic collaborator, over the integers. -/
def manhattanZ (dx dy : Nat) : ℤ :=
  (dx : ℤ) + dy

/-- A concrete two-cell grid: `(0,0)` and `(1,0)` are mutual neighbours,
every other coordinate has no neighbours. -/
def gridAB : Node → List Node := fun n =>
  if n = ⟨0, 0⟩ then [⟨1, 0⟩] else if n = ⟨1, 0⟩ then [⟨0, 0⟩] else []

/-- A concrete grid where `(0,0)` has the two neighbours `(0,1)` and
`(1,0)` and no node has any other neighbour. -/
def gridFork : Node → List Node := fun n =>
  if n = ⟨0, 0⟩ then [⟨0, 1⟩, ⟨1, 0⟩] else []

/-- A baseline concrete finder over `ℤ`: Manhattan heuristic, weight `1`,
no recursion tracking, no time limit, the two-cell grid, coordinate node
lookup. -/
def baseCfg : IDAStarFinder ℤ :=
  { heuristic := manhattanZ
    weight := 1
    trackRecursion := false
    timeLimit := none
    getNeighbors := gridAB
    getNodeAt := fun x y => ⟨x, y⟩
    sqrt2 := 2
    elapsedAt := fun _ => 0 }

/-- The baseline finder with recursion tracking enabled. -/
def trackCfg : IDAStarFinder ℤ :=
  { baseCfg with trackRecursion := true }

/-- The baseline finder with heuristic weight `2`. -/
def weightedCfg : IDAStarFinder ℤ :=
  { baseCfg with weight := 2 }

/-- A finder whose clock expires from the third node visit on:
time limit `1` second, elapsed `2000` ms once three nodes were visited. -/
def timedCfg : IDAStarFinder ℤ :=
  { baseCfg with
    getNeighbors := gridFork
    timeLimit := some 1
    elapsedAt := fun c => if 3 ≤ c then 2000 else 0 }

/-- A finder whose clock is expired from the very first node visit. -/
def expiredCfg : IDAStarFinder ℤ :=
  { baseCfg with timeLimit := some 1, elapsedAt := fun _ => 2000 }

/-! ### Basic facts about the embedded operations -/

theorem validSteps_nil (cfg : IDAStarFinder α) : ValidSteps cfg [] := rfl

theorem validSteps_singleton (cfg : IDAStarFinder α) (v : Node) :
    ValidSteps cfg [v] := rfl

theorem validSteps_cons {cfg : IDAStarFinder α} {a b : Node}
    {rest : List Node} :
    ValidSteps cfg (a :: b :: rest) ↔
      b ∈ cfg.getNeighbors a ∧ ValidSteps cfg (b :: rest) := by
  simp [ValidSteps, stepsB]

theorem stepCost_comm (cfg : IDAStarFinder α) (a b : Node) :
    stepCost cfg a b = stepCost cfg b a := by
  simp only [stepCost]
  by_cases h : a.x = b.x ∨ a.y = b.y
  · rw [if_pos h, if_pos (h.imp Eq.symm Eq.symm)]
  · rw [if_neg h, if_neg (fun hc => h (hc.imp Eq.symm Eq.symm))]

theorem searchNbrs_found_shape {cfg : IDAStarFinder α} {node : Node} {g : α}
    {deeper : Node → α → SState → Option (SRes α × SState)} :
    ∀ (l : List Node) (minB : WithTop α) (st : SState) (r : List Node)
      (st2 : SState),
      searchNbrs cfg node g deeper l minB st = some (.found r, st2) →
      ∃ r1, r = node :: r1 := by
  intro l
  induction l with
  | nil =>
    intro minB st r st2 h
    simp [searchNbrs] at h
  | cons nb rest ih =>
    intro minB st r st2 h
    simp only [searchNbrs] at h
    split at h
    · exact absurd h (by simp)
    · rename_i r1 st3 hde
      simp only [Option.some.injEq, Prod.mk.injEq, SRes.found.injEq] at h
      exact ⟨r1, h.1.symm⟩
    · exact ih _ _ _ _ h

theorem search_found_shape {cfg : IDAStarFinder α} {endN : Node} {cutoff : α} :
    ∀ (fuel : Nat) (node : Node) (g : α) (st : SState) (r : List Node)
      (st2 : SState),
      search cfg endN cutoff fuel node g st = some (.found r, st2) →
      ∃ r1, r = node :: r1 := by
  intro fuel
  cases fuel with
  | zero => intro node g st r st2 h; simp [search] at h
  | succ fuel =>
    intro node g st r st2 h
    simp only [search] at h
    split at h
    · exact absurd h (by simp)
    · split at h
      · exact absurd h (by simp)
      · split at h
        · simp only [Option.some.injEq, Prod.mk.injEq, SRes.found.injEq] at h
          exact ⟨[], h.1.symm⟩
        · exact searchNbrs_found_shape _ _ _ _ _ h

/-! ### Any finite bound returned by a sweep strictly exceeds its cutoff -/

theorem searchNbrs_bound_gt {cfg : IDAStarFinder α} {node : Node} {g : α}
    {deeper : Node → α → SState → Option (SRes α × SState)} {cutoff : α}
    (hd : ∀ nb g1 st1 b st2, deeper nb g1 st1 = some (.bound b, st2) →
      (cutoff : WithTop α) < b) :
    ∀ (l : List Node) (minB : WithTop α) (st : SState) (b : WithTop α)
      (st2 : SState), (cutoff : WithTop α) < minB →
      searchNbrs cfg node g deeper l minB st = some (.bound b, st2) →
      (cutoff : WithTop α) < b := by
  intro l
  induction l with
  | nil =>
    intro minB st b st2 hmin h
    simp only [searchNbrs, Option.some.injEq, Prod.mk.injEq,
      SRes.bound.injEq] at h
    exact h.1 ▸ hmin
  | cons nb rest ih =>
    intro minB st b st2 hmin h
    simp only [searchNbrs] at h
    split at h
    · exact absurd h (by simp)
    · exact absurd h (by simp)
    · rename_i b1 st3 hde
      refine ih _ _ _ _ ?_ h
      have hb1 := hd _ _ _ _ _ hde
      by_cases hlt : b1 < minB
      · simpa [hlt] using hb1
      · simpa [hlt] using hmin

theorem search_bound_gt {cfg : IDAStarFinder α} {endN : Node} {cutoff : α} :
    ∀ (fuel : Nat) (node : Node) (g : α) (st : SState) (b : WithTop α)
      (st2 : SState),
      search cfg endN cutoff fuel node g st = some (.bound b, st2) →
      (cutoff : WithTop α) < b := by
  intro fuel
  induction fuel with
  | zero => intro node g st b st2 h; simp [search] at h
  | succ fuel ih =>
    intro node g st b st2 h
    simp only [search] at h
    split at h
    · simp only [Option.some.injEq, Prod.mk.injEq, SRes.bound.injEq] at h
      exact h.1 ▸ WithTop.coe_lt_top cutoff
    · split at h
      · rename_i hlt
        simp only [Option.some.injEq, Prod.mk.injEq, SRes.bound.injEq] at h
        exact h.1 ▸ WithTop.coe_lt_coe.mpr hlt
      · split at h
        · exact absurd h (by simp)
        · exact searchNbrs_bound_gt
            (fun nb g1 st1 b1 st3 hh => ih _ _ _ _ _ hh) _ _ _ _ _
            (WithTop.coe_lt_top cutoff) h

theorem cutoffTrace_chain (cfg : IDAStarFinder α) (endN : Node) (f2 : Nat) :
    ∀ (f1 : Nat) (startN : Node) (cutoff : α) (st : SState),
      List.Chain' (· ≤ ·) (cutoffTrace cfg endN f2 f1 startN cutoff st) := by
  intro f1
  induction f1 with
  | zero => intro startN cutoff st; simp [cutoffTrace]
  | succ f1 ih =>
    intro startN cutoff st
    simp only [cutoffTrace]
    rw [List.chain'_cons']
    constructor
    · intro y hy
      rcases hs : search cfg endN cutoff f2 startN 0 st with _ | ⟨res, st1⟩
      · rw [hs] at hy; simp at hy
      · rw [hs] at hy
        cases res with
        | found r => simp at hy
        | bound b =>
          by_cases hb : b = ⊤
          · simp [hb] at hy
          · simp only [hb, if_false] at hy
            obtain ⟨b0, rfl⟩ := WithTop.ne_top_iff_exists.mp hb
            have hgt : (cutoff : WithTop α) < (b0 : WithTop α) := by
              have := search_bound_gt f2 startN 0 st _ _ hs
              exact this
            have hle : cutoff ≤ b0 := le_of_lt (WithTop.coe_lt_coe.mp hgt)
            cases f1 with
            | zero => simp [cutoffTrace] at hy
            | succ f1 =>
              simp only [cutoffTrace, WithTop.untop'_coe, List.head?] at hy
              simp only [Option.mem_def, Option.some.injEq] at hy
              exact hy ▸ hle
    · rcases hs : search cfg endN cutoff f2 startN 0 st with _ | ⟨res, st1⟩
      · simp [hs]
      · cases res with
        | found r => simp [hs]
        | bound b =>
          by_cases hb : b = ⊤
          · simp [hs, hb]
          · simp only [hs, hb, if_false]
            exact ih _ _ _

/-- C7: within a single `findPath` call, the successive sweep cutoffs form
a non-decreasing sequence (each new cutoff, the minimum pruned bound of
the previous sweep, is at least the previous cutoff). -/
theorem c7_cutoffs_nondecreasing (cfg : IDAStarFinder α)
    (sx sy ex ey : Int) (f1 f2 : Nat) :
    List.Chain' (· ≤ ·) (findPathCutoffs cfg sx sy ex ey f1 f2) :=
  cutoffTrace_chain cfg (cfg.getNodeAt ex ey) f2 f1 (cfg.getNodeAt sx sy)
    (initialCutoff cfg (cfg.getNodeAt sx sy) (cfg.getNodeAt ex ey))
    ⟨0, fun _ => (0, false)⟩

/-! ### Instrumentation bookkeeping (C1) -/

theorem instrInv_init : InstrInv (fun _ => (0, false)) := by
  intro v; simp

theorem instrInv_bump {i : Node → Nat × Bool} (h : InstrInv i) (v : Node) :
    InstrInv (bump i v) := by
  intro w
  simp only [bump]
  by_cases hw : w = v
  · simp [hw]
  · simp only [if_neg hw]
    exact h w

theorem bump_self (i : Node → Nat × Bool) (v : Node) :
    bump i v v = ((i v).1 + 1, true) := by
  simp [bump]

theorem unbump_bump {i : Node → Nat × Bool} (h : InstrInv i) (v : Node) :
    unbump (bump i v) v = i := by
  funext w
  by_cases hw : w = v
  · subst hw
    simp only [unbump, bump, eq_self_iff_true, if_true, Nat.add_sub_cancel]
    by_cases hk : (i w).1 = 0
    · rw [if_pos hk]
      have h3 : (i w).2 = false := by rw [h w, hk]; simp
      rw [← h3]
    · rw [if_neg hk]
      have h3 : (i w).2 = true := by rw [h w]; simp [hk]
      rw [← h3]
  · simp only [unbump, bump, if_neg hw]

theorem searchNbrs_bound_instr {cfg : IDAStarFinder α} {node : Node} {g : α}
    {deeper : Node → α → SState → Option (SRes α × SState)}
    (hd : ∀ nb g1 st1 b st2, InstrInv st1.instr →
      deeper nb g1 st1 = some (.bound b, st2) → st2.instr = st1.instr) :
    ∀ (l : List Node) (minB : WithTop α) (st : SState) (b : WithTop α)
      (st2 : SState), InstrInv st.instr →
      searchNbrs cfg node g deeper l minB st = some (.bound b, st2) →
      st2.instr = st.instr := by
  intro l
  induction l with
  | nil =>
    intro minB st b st2 hinv h
    simp only [searchNbrs, Option.some.injEq, Prod.mk.injEq,
      SRes.bound.injEq] at h
    rw [← h.2]
  | cons nb rest ih =>
    intro minB st b st2 hinv h
    simp only [searchNbrs] at h
    split at h
    · exact absurd h (by simp)
    · exact absurd h (by simp)
    · rename_i b1 st3 hde
      by_cases htrk : cfg.trackRecursion = true
      · simp only [htrk, if_true] at hde h
        have hst3 : st3.instr = bump st.instr nb :=
          hd _ _ _ _ _ (instrInv_bump hinv nb) hde
        rw [hst3, unbump_bump hinv nb] at h
        have h5 : st2.instr = (⟨st3.clock, st.instr⟩ : SState).instr := by
          refine ih _ _ _ _ ?_ h
          exact hinv
        exact h5
      · simp only [htrk, if_false] at hde h
        have hst3 : st3.instr = st.instr := hd _ _ _ _ _ hinv hde
        have h5 : st2.instr = st3.instr := by
          refine ih _ _ _ _ ?_ h
          rw [hst3]; exact hinv
        rw [h5, hst3]

theorem search_bound_instr {cfg : IDAStarFinder α} {endN : Node}
    {cutoff : α} :
    ∀ (fuel : Nat) (node : Node) (g : α) (st : SState) (b : WithTop α)
      (st2 : SState), InstrInv st.instr →
      search cfg endN cutoff fuel node g st = some (.bound b, st2) →
      st2.instr = st.instr := by
  intro fuel
  induction fuel with
  | zero => intro node g st b st2 _ h; simp [search] at h
  | succ fuel ih =>
    intro node g st b st2 hinv h
    simp only [search] at h
    split at h
    · simp only [Option.some.injEq, Prod.mk.injEq, SRes.bound.injEq] at h
      rw [← h.2]
    · split at h
      · simp only [Option.some.injEq, Prod.mk.injEq, SRes.bound.injEq] at h
        rw [← h.2]
      · split at h
        · exact absurd h (by simp)
        · have h5 : st2.instr = (⟨st.clock + 1, st.instr⟩ : SState).instr := by
            refine searchNbrs_bound_instr
              (fun nb g1 st1 b1 st3 hi hh => ih nb g1 st1 b1 st3 hi hh)
              _ _ _ _ _ ?_ h
            exact hinv
          exact h5

theorem findPathAux_empty_instr {cfg : IDAStarFinder α} {endN : Node}
    {f2 : Nat} :
    ∀ (f1 : Nat) (startN : Node) (cutoff : α) (st : SState) (st2 : SState),
      InstrInv st.instr →
      findPathAux cfg endN f2 f1 startN cutoff st = some ([], st2) →
      st2.instr = st.instr := by
  intro f1
  induction f1 with
  | zero => intro startN cutoff st st2 _ h; simp [findPathAux] at h
  | succ f1 ih =>
    intro startN cutoff st st2 hinv h
    simp only [findPathAux] at h
    split at h
    · exact absurd h (by simp)
    · rename_i r st1 hs
      simp only [Option.some.injEq, Prod.mk.injEq] at h
      obtain ⟨r1, hr1⟩ := search_found_shape f2 startN 0 st r st1 hs
      rw [hr1] at h
      exact absurd h.1 (List.cons_ne_nil _ _)
    · rename_i b st1 hs
      have hst1 : st1.instr = st.instr :=
        search_bound_instr f2 startN 0 st b st1 hinv hs
      split at h
      · simp only [Option.some.injEq, Prod.mk.injEq] at h
        rw [← h.2, hst1]
      · have := ih _ _ _ _ (hst1 ▸ hinv) h
        rw [this, hst1]

/-- C1 (amended): after a `findPath` call that returns the empty path —
exhaustion or timeout — every node's `retainCount` is `0` and its `tested`
flag is `false`; a successful call, by contrast, can leave the
instrumentation set on the nodes of the returned route (see the
counterexample). -/
theorem c1_instr_reset_on_empty (cfg : IDAStarFinder α)
    (sx sy ex ey : Int) (f1 f2 : Nat) (st : SState)
    (h : findPath cfg sx sy ex ey f1 f2 = some ([], st)) :
    ∀ v, st.instr v = (0, false) := by
  intro v
  simp only [findPath] at h
  have := findPathAux_empty_instr f1 _ _ _ _ instrInv_init h
  rw [this]

/-- C1 counterexample: with recursion tracking enabled on the two-cell
grid, the successful call `findPath (0,0) → (1,0)` returns the route
`[(0,0), (1,0)]` but leaves the goal node `(1,0)` with `retainCount = 1`
and `tested = true`: the bookkeeping is not unwound on the success path,
refuting the claim that it is always zero/false after the call. -/
theorem c1_counterexample :
    (findPath trackCfg 0 0 1 0 5 5).map (fun p => p.1) =
        some [⟨0, 0⟩, ⟨1, 0⟩] ∧
      (findPath trackCfg 0 0 1 0 5 5).map (fun p => p.2.instr ⟨1, 0⟩) =
        some (1, true) := by
  constructor
  · decide
  · decide

theorem c1_witness :
    ∃ st, findPath trackCfg 5 5 0 0 3 3 = some ([], st) ∧
      st.instr ⟨1, 0⟩ = (0, false) ∧ st.instr ⟨5, 5⟩ = (0, false) := by
  have hrun : findPath trackCfg 5 5 0 0 3 3 =
      some ([], ⟨1, fun _ => (0, false)⟩) := rfl
  exact ⟨⟨1, fun _ => (0, false)⟩, hrun,
    c1_instr_reset_on_empty trackCfg 5 5 0 0 3 3 _ hrun ⟨1, 0⟩,
    c1_instr_reset_on_empty trackCfg 5 5 0 0 3 3 _ hrun ⟨5, 5⟩⟩

/-! ### One-sweep stepping of the outer loop -/

theorem findPathAux_step_found {cfg : IDAStarFinder α} {endN : Node}
    {f2 : Nat} {s : Node} {c : α} {st st1 : SState} {r : List Node}
    (h : search cfg endN c f2 s 0 st = some (.found r, st1)) (k : Nat) :
    findPathAux cfg endN f2 (k + 1) s c st = some (r, st1) := by
  simp only [findPathAux]
  rw [h]

theorem findPathAux_step_top {cfg : IDAStarFinder α} {endN : Node}
    {f2 : Nat} {s : Node} {c : α} {st st1 : SState}
    (h : search cfg endN c f2 s 0 st = some (.bound ⊤, st1)) (k : Nat) :
    findPathAux cfg endN f2 (k + 1) s c st = some ([], st1) := by
  simp only [findPathAux]
  rw [h]
  simp

theorem findPathAux_step_bound {cfg : IDAStarFinder α} {endN : Node}
    {f2 : Nat} {s : Node} {c : α} {st st1 : SState} {b0 : α}
    (h : search cfg endN c f2 s 0 st = some (.bound (b0 : WithTop α), st1))
    (k : Nat) :
    findPathAux cfg endN f2 (k + 1) s c st =
      findPathAux cfg endN f2 k s b0 st1 := by
  simp only [findPathAux]
  rw [h]
  simp [WithTop.coe_ne_top]

/-! ### C2: the initial cutoff -/

/-- C2 counterexample: with weight 2 on the two-cell grid, the initial
cutoff of `findPath (0,0) → (1,0)` is the bare heuristic value `1`, not
`heuristic × weight = 2`: the weight is not applied at line 148. -/
theorem c2_counterexample :
    ¬ initialCutoff weightedCfg ⟨0, 0⟩ ⟨1, 0⟩ =
        hF weightedCfg ⟨0, 0⟩ ⟨1, 0⟩ * weightedCfg.weight := by
  decide

/-- C2 (amended): the initial cutoff equals the unweighted heuristic
estimate `h(start, goal)`; with `weight > 1` and a positive estimate the
first sweep therefore prunes immediately at the root and returns
`h(start, goal) × weight` as the escalated bound. -/
theorem c2_initial_cutoff_unweighted (cfg : IDAStarFinder α) (s e : Node)
    (hnx : timeExpired cfg 1 = false) (hpos : 0 < hF cfg s e)
    (hw : 1 < cfg.weight) :
    initialCutoff cfg s e = hF cfg s e ∧
    ∀ f2 : Nat,
      search cfg e (initialCutoff cfg s e) (f2 + 1) s 0
          ⟨0, fun _ => (0, false)⟩ =
        some (.bound ((0 + hF cfg s e * cfg.weight : α) : WithTop α),
          ⟨1, fun _ => (0, false)⟩) := by
  refine ⟨rfl, fun f2 => ?_⟩
  have hprune : initialCutoff cfg s e < 0 + hF cfg s e * cfg.weight := by
    rw [zero_add, initialCutoff]
    calc hF cfg s e = hF cfg s e * 1 := (mul_one _).symm
    _ < hF cfg s e * cfg.weight := mul_lt_mul_of_pos_left hw hpos
  simp only [search]
  rw [if_neg (by simp [hnx]), if_pos hprune]

theorem c2_witness :
    initialCutoff weightedCfg ⟨0, 0⟩ ⟨1, 0⟩ = hF weightedCfg ⟨0, 0⟩ ⟨1, 0⟩ ∧
    search weightedCfg ⟨1, 0⟩ (initialCutoff weightedCfg ⟨0, 0⟩ ⟨1, 0⟩) 1
        ⟨0, 0⟩ 0 ⟨0, fun _ => (0, false)⟩ =
      some (.bound ((0 + hF weightedCfg ⟨0, 0⟩ ⟨1, 0⟩ *
          weightedCfg.weight : ℤ) : WithTop ℤ), ⟨1, fun _ => (0, false)⟩) := by
  obtain ⟨h1, h2⟩ := c2_initial_cutoff_unweighted weightedCfg ⟨0, 0⟩ ⟨1, 0⟩
    rfl (by decide) (by decide)
  exact ⟨h1, h2 0⟩

/-! ### C10: the time check precedes the goal test -/

/-- C10: the time-limit check is performed before the goal test: once the
limit has expired, `search` returns the `Infinity` sentinel even when the
examined node is the goal itself, and a `findPath` call whose clock is
already expired at the first visit returns the empty path even when
start = goal (the search is standing on the goal). -/
theorem c10_time_check_before_goal_test (cfg : IDAStarFinder α)
    (hexp : timeExpired cfg 1 = true)
    (hmono : ∀ c c', c ≤ c' → timeExpired cfg c = true →
      timeExpired cfg c' = true) :
    (∀ (endN : Node) (cutoff : α) (fuel : Nat) (g : α) (st : SState),
      search cfg endN cutoff (fuel + 1) endN g st =
        some (.bound ⊤, ⟨st.clock + 1, st.instr⟩)) ∧
    ∀ (x y : Int) (f1 f2 : Nat),
      findPath cfg x y x y (f1 + 1) (f2 + 1) =
        some ([], ⟨1, fun _ => (0, false)⟩) := by
  have hpart1 : ∀ (endN : Node) (cutoff : α) (fuel : Nat) (g : α)
      (st : SState),
      search cfg endN cutoff (fuel + 1) endN g st =
        some (.bound ⊤, ⟨st.clock + 1, st.instr⟩) := by
    intro endN cutoff fuel g st
    simp only [search]
    rw [if_pos (hmono 1 (st.clock + 1) (Nat.le_add_left 1 st.clock) hexp)]
  refine ⟨hpart1, fun x y f1 f2 => ?_⟩
  show findPathAux cfg (cfg.getNodeAt x y) (f2 + 1) (f1 + 1)
      (cfg.getNodeAt x y) _ ⟨0, fun _ => (0, false)⟩ = _
  rw [findPathAux_step_top (hpart1 (cfg.getNodeAt x y) _ f2 0
    ⟨0, fun _ => (0, false)⟩) f1]

theorem c10_witness :
    search expiredCfg ⟨0, 0⟩ 0 1 ⟨0, 0⟩ 0 ⟨0, fun _ => (0, false)⟩ =
      some (.bound ⊤, ⟨1, fun _ => (0, false)⟩) ∧
    findPath expiredCfg 0 0 0 0 1 1 = some ([], ⟨1, fun _ => (0, false)⟩) := by
  obtain ⟨h1, h2⟩ := c10_time_check_before_goal_test expiredCfg (by decide)
    (fun c c' _ _ => by simp [timeExpired, expiredCfg, baseCfg])
  exact ⟨h1 ⟨0, 0⟩ 0 0 0 ⟨0, fun _ => (0, false)⟩, h2 0 0 0 0⟩

/-! ### C6: timeout behaviour -/

theorem searchNbrs_found_not_expired {cfg : IDAStarFinder α} {node : Node}
    {g : α} {deeper : Node → α → SState → Option (SRes α × SState)}
    (hd : ∀ nb g1 st1 r st2, deeper nb g1 st1 = some (.found r, st2) →
      timeExpired cfg st2.clock = false) :
    ∀ (l : List Node) (minB : WithTop α) (st : SState) (r : List Node)
      (st2 : SState),
      searchNbrs cfg node g deeper l minB st = some (.found r, st2) →
      timeExpired cfg st2.clock = false := by
  intro l
  induction l with
  | nil => intro minB st r st2 h; simp [searchNbrs] at h
  | cons nb rest ih =>
    intro minB st r st2 h
    simp only [searchNbrs] at h
    split at h
    · exact absurd h (by simp)
    · rename_i r1 st3 hde
      simp only [Option.some.injEq, Prod.mk.injEq] at h
      exact h.2 ▸ hd _ _ _ _ _ hde
    · exact ih _ _ _ _ h

theorem search_found_not_expired {cfg : IDAStarFinder α} {endN : Node}
    {cutoff : α} :
    ∀ (fuel : Nat) (node : Node) (g : α) (st : SState) (r : List Node)
      (st2 : SState),
      search cfg endN cutoff fuel node g st = some (.found r, st2) →
      timeExpired cfg st2.clock = false := by
  intro fuel
  induction fuel with
  | zero => intro node g st r st2 h; simp [search] at h
  | succ fuel ih =>
    intro node g st r st2 h
    simp only [search] at h
    split at h
    · exact absurd h (by simp)
    · rename_i hnx
      simp only [Bool.not_eq_true] at hnx
      split at h
      · exact absurd h (by simp)
      · split at h
        · simp only [Option.some.injEq, Prod.mk.injEq] at h
          rw [← h.2]
          exact hnx
        · exact searchNbrs_found_not_expired
            (fun nb g1 st1 r1 st3 hh => ih nb g1 st1 r1 st3 hh) _ _ _ _ _ h

theorem findPathAux_expired_empty {cfg : IDAStarFinder α} {endN : Node}
    {f2 : Nat} :
    ∀ (f1 : Nat) (startN : Node) (cutoff : α) (st : SState)
      (route : List Node) (st2 : SState),
      findPathAux cfg endN f2 f1 startN cutoff st = some (route, st2) →
      timeExpired cfg st2.clock = true → route = [] := by
  intro f1
  induction f1 with
  | zero => intro startN cutoff st route st2 h _; simp [findPathAux] at h
  | succ f1 ih =>
    intro startN cutoff st route st2 h hexp
    simp only [findPathAux] at h
    split at h
    · exact absurd h (by simp)
    · rename_i r st1 hs
      simp only [Option.some.injEq, Prod.mk.injEq] at h
      have hne := search_found_not_expired f2 startN 0 st r st1 hs
      rw [h.2] at hne
      rw [hne] at hexp
      exact absurd hexp (by simp)
    · rename_i b st1 hs
      split at h
      · simp only [Option.some.injEq, Prod.mk.injEq] at h
        exact h.1.symm
      · exact ih _ _ _ _ _ h hexp

/-- C6 (amended): once the time limit has expired, every expansion entered
afterwards returns the `Infinity` sentinel before doing any other work;
pending frames can still return finite pruned bounds collected before the
expiry (see the counterexample), but any call that is expired by the time
it returns yields the empty path — an outcome signalled identically to an
unreachable goal — and a configured time limit ≤ 0 disables the time
check entirely. -/
theorem c6_timeout_behaviour (cfg : IDAStarFinder α) :
    (∀ (endN node : Node) (cutoff g : α) (fuel : Nat) (st : SState),
      timeExpired cfg (st.clock + 1) = true →
      search cfg endN cutoff (fuel + 1) node g st =
        some (.bound ⊤, ⟨st.clock + 1, st.instr⟩)) ∧
    (∀ (sx sy ex ey : Int) (f1 f2 : Nat) (route : List Node) (st : SState),
      findPath cfg sx sy ex ey f1 f2 = some (route, st) →
      timeExpired cfg st.clock = true → route = []) ∧
    ∀ t : α, t ≤ 0 → ∀ c,
      timeExpired { cfg with timeLimit := resolveTimeLimit t } c = false := by
  refine ⟨?_, ?_, ?_⟩
  · intro endN node cutoff g fuel st hexp
    simp only [search]
    rw [if_pos hexp]
  · intro sx sy ex ey f1 f2 route st h hexp
    simp only [findPath] at h
    exact findPathAux_expired_empty f1 _ _ _ _ _ h hexp
  · intro t ht c
    by_cases h0 : t = 0
    · simp [timeExpired, resolveTimeLimit, h0]
    · simp [timeExpired, resolveTimeLimit, h0, not_lt.mpr ht]

/-- C6 counterexample: on the fork grid with the clock expiring at the
third node visit, the first sweep's top-level expansion returns the
finite pruned bound `5` — not the `Infinity` sentinel — even though the
time limit expired during that expansion: an in-progress frame is not
short-circuited and still returns the minimum bound collected before
expiry. -/
theorem c6_counterexample :
    (search timedCfg ⟨3, 0⟩ 3 5 ⟨0, 0⟩ 0 ⟨0, fun _ => (0, false)⟩).map
        (fun p => (p.1, p.2.clock)) =
      some (.bound ((5 : ℤ) : WithTop ℤ), 3) ∧
    timeExpired timedCfg 3 = true := by
  exact ⟨by decide, by decide⟩

theorem c6_witness :
    search timedCfg ⟨3, 0⟩ 3 4 ⟨9, 9⟩ 0 ⟨2, fun _ => (0, false)⟩ =
      some (.bound ⊤, ⟨3, fun _ => (0, false)⟩) ∧
    ([] : List Node) = [] ∧
    timeExpired { timedCfg with timeLimit := resolveTimeLimit (-1 : ℤ) } 7 =
      false := by
  obtain ⟨h1, h2, h3⟩ := c6_timeout_behaviour timedCfg
  refine ⟨?_, ?_, h3 (-1) (by norm_num) 7⟩
  · exact h1 ⟨3, 0⟩ ⟨9, 9⟩ 3 0 3 ⟨2, fun _ => (0, false)⟩ (by decide)
  · exact h2 0 0 3 0 2 5 [] ⟨4, fun _ => (0, false)⟩ rfl (by decide)

/-! ### C8: start = goal -/

/-- C8: for every coordinate, when the time check never fires, a
`findPath` call with start = goal returns the single-element path holding
that coordinate (one sweep suffices unless the weighted estimate exceeds
the unweighted initial cutoff, in which case the second sweep succeeds). -/
theorem c8_start_eq_goal (cfg : IDAStarFinder α) (x y : Int)
    (hnx : ∀ c, timeExpired cfg c = false)
    (hwf : cfg.getNodeAt x y = ⟨x, y⟩) (f1 f2 : Nat) :
    ∃ st, findPath cfg x y x y (f1 + 1 + 1) (f2 + 1) =
      some ([⟨x, y⟩], st) := by
  have hA : ∀ (cutoff : α) (st : SState),
      ¬ cutoff < 0 + hF cfg ⟨x, y⟩ ⟨x, y⟩ * cfg.weight →
      search cfg ⟨x, y⟩ cutoff (f2 + 1) ⟨x, y⟩ 0 st =
        some (.found [⟨x, y⟩], ⟨st.clock + 1, st.instr⟩) := by
    intro cutoff st hc
    simp only [search]
    rw [if_neg (by simp [hnx]), if_neg hc]
    simp
  have hB : ∀ (cutoff : α) (st : SState),
      cutoff < 0 + hF cfg ⟨x, y⟩ ⟨x, y⟩ * cfg.weight →
      search cfg ⟨x, y⟩ cutoff (f2 + 1) ⟨x, y⟩ 0 st =
        some (.bound ((0 + hF cfg ⟨x, y⟩ ⟨x, y⟩ * cfg.weight : α) :
          WithTop α), ⟨st.clock + 1, st.instr⟩) := by
    intro cutoff st hc
    simp only [search]
    rw [if_neg (by simp [hnx]), if_pos hc]
  show ∃ st, findPathAux cfg (cfg.getNodeAt x y) (f2 + 1) (f1 + 1 + 1)
      (cfg.getNodeAt x y)
      (initialCutoff cfg (cfg.getNodeAt x y) (cfg.getNodeAt x y))
      ⟨0, fun _ => (0, false)⟩ = some ([⟨x, y⟩], st)
  rw [hwf]
  by_cases hc : initialCutoff cfg ⟨x, y⟩ ⟨x, y⟩ <
      0 + hF cfg ⟨x, y⟩ ⟨x, y⟩ * cfg.weight
  · refine ⟨⟨2, fun _ => (0, false)⟩, ?_⟩
    rw [findPathAux_step_bound (hB _ _ hc) (f1 + 1),
      findPathAux_step_found (hA _ _ (lt_irrefl _)) f1]
  · exact ⟨⟨1, fun _ => (0, false)⟩,
      findPathAux_step_found (hA _ _ hc) (f1 + 1)⟩

theorem c8_witness :
    ∃ st, findPath baseCfg 2 7 2 7 2 1 = some ([⟨2, 7⟩], st) :=
  c8_start_eq_goal baseCfg 2 7 (fun _ => rfl) rfl 0 0

/-! ### C9: the instrumentation never influences the result -/

theorem trackRecursion_track (cfg : IDAStarFinder α) (b : Bool) :
    ({ cfg with trackRecursion := b } : IDAStarFinder α).trackRecursion =
      b := rfl

theorem timeExpired_track (cfg : IDAStarFinder α) (b : Bool) (c : Nat) :
    timeExpired { cfg with trackRecursion := b } c = timeExpired cfg c := rfl

theorem hF_track (cfg : IDAStarFinder α) (b : Bool) (a a2 : Node) :
    hF { cfg with trackRecursion := b } a a2 = hF cfg a a2 := rfl

theorem stepCost_track (cfg : IDAStarFinder α) (b : Bool) (a a2 : Node) :
    stepCost { cfg with trackRecursion := b } a a2 = stepCost cfg a a2 := rfl

theorem getNeighbors_track (cfg : IDAStarFinder α) (b : Bool) (v : Node) :
    ({ cfg with trackRecursion := b } : IDAStarFinder α).getNeighbors v =
      cfg.getNeighbors v := rfl

theorem weight_track (cfg : IDAStarFinder α) (b : Bool) :
    ({ cfg with trackRecursion := b } : IDAStarFinder α).weight =
      cfg.weight := rfl

theorem searchNbrs_track_irrel {cfg : IDAStarFinder α} {b1 b2 : Bool}
    {node : Node} {g : α}
    {d1 d2 : Node → α → SState → Option (SRes α × SState)}
    (hd : ∀ nb g1 st1 st1', st1.clock = st1'.clock →
      (d1 nb g1 st1).map (fun p => (p.1, p.2.clock)) =
      (d2 nb g1 st1').map (fun p => (p.1, p.2.clock))) :
    ∀ (l : List Node) (minB : WithTop α) (st st' : SState),
      st.clock = st'.clock →
      (searchNbrs { cfg with trackRecursion := b1 } node g d1 l minB
          st).map (fun p => (p.1, p.2.clock)) =
      (searchNbrs { cfg with trackRecursion := b2 } node g d2 l minB
          st').map (fun p => (p.1, p.2.clock)) := by
  intro l
  induction l with
  | nil => intro minB st st' hcl; simp [searchNbrs, hcl]
  | cons nb rest ih =>
    intro minB st st' hcl
    simp only [searchNbrs, trackRecursion_track, stepCost_track]
    have hcl1 :
        (if b1 = true then (⟨st.clock, bump st.instr nb⟩ : SState)
          else st).clock =
        (if b2 = true then (⟨st'.clock, bump st'.instr nb⟩ : SState)
          else st').clock := by
      cases b1 <;> cases b2 <;> simp [hcl]
    have hmap := hd nb (g + stepCost cfg node nb) _ _ hcl1
    rcases hde1 : d1 nb (g + stepCost cfg node nb)
        (if b1 = true then ⟨st.clock, bump st.instr nb⟩ else st) with
      _ | ⟨res, st2⟩
    · rcases hde2 : d2 nb (g + stepCost cfg node nb)
          (if b2 = true then ⟨st'.clock, bump st'.instr nb⟩ else st') with
        _ | ⟨res2, st2'⟩
      · simp
      · rw [hde1, hde2] at hmap; simp at hmap
    · rcases hde2 : d2 nb (g + stepCost cfg node nb)
          (if b2 = true then ⟨st'.clock, bump st'.instr nb⟩ else st') with
        _ | ⟨res2, st2'⟩
      · rw [hde1, hde2] at hmap; simp at hmap
      · rw [hde1, hde2] at hmap
        simp at hmap
        obtain ⟨hres, hclk⟩ := hmap
        subst hres
        cases res with
        | found r => simp [hclk]
        | bound b =>
          have hcl3 :
              (if b1 = true then
                (⟨st2.clock, unbump st2.instr nb⟩ : SState) else st2).clock =
              (if b2 = true then
                (⟨st2'.clock, unbump st2'.instr nb⟩ : SState)
                else st2').clock := by
            cases b1 <;> cases b2 <;> simp [hclk]
          exact ih _ _ _ hcl3

theorem search_track_irrel {cfg : IDAStarFinder α} {b1 b2 : Bool}
    {endN : Node} {cutoff : α} :
    ∀ (fuel : Nat) (node : Node) (g : α) (st st' : SState),
      st.clock = st'.clock →
      (search { cfg with trackRecursion := b1 } endN cutoff fuel node g
          st).map (fun p => (p.1, p.2.clock)) =
      (search { cfg with trackRecursion := b2 } endN cutoff fuel node g
          st').map (fun p => (p.1, p.2.clock)) := by
  intro fuel
  induction fuel with
  | zero => intro node g st st' hcl; simp [search]
  | succ fuel ih =>
    intro node g st st' hcl
    simp only [search, timeExpired_track, hF_track, weight_track,
      getNeighbors_track, stepCost_track, hcl]
    by_cases hexp : timeExpired cfg (st'.clock + 1) = true
    · rw [if_pos hexp, if_pos hexp]; simp
    · rw [if_neg hexp, if_neg hexp]
      by_cases hpr : cutoff < g + hF cfg node endN * cfg.weight
      · rw [if_pos hpr, if_pos hpr]; simp
      · rw [if_neg hpr, if_neg hpr]
        by_cases hgoal : node = endN
        · rw [if_pos hgoal, if_pos hgoal]; simp
        · rw [if_neg hgoal, if_neg hgoal]
          exact searchNbrs_track_irrel
            (fun nb g1 st1 st1' hc => ih nb g1 st1 st1' hc) _ _ _ _ rfl

theorem findPathAux_track_irrel {cfg : IDAStarFinder α} {b1 b2 : Bool}
    {endN : Node} {f2 : Nat} :
    ∀ (f1 : Nat) (startN : Node) (cutoff : α) (st st' : SState),
      st.clock = st'.clock →
      (findPathAux { cfg with trackRecursion := b1 } endN f2 f1 startN
          cutoff st).map (fun p => (p.1, p.2.clock)) =
      (findPathAux { cfg with trackRecursion := b2 } endN f2 f1 startN
          cutoff st').map (fun p => (p.1, p.2.clock)) := by
  intro f1
  induction f1 with
  | zero => intro startN cutoff st st' hcl; simp [findPathAux]
  | succ f1 ih =>
    intro startN cutoff st st' hcl
    simp only [findPathAux]
    have hmap := @search_track_irrel α _ cfg b1 b2 endN cutoff
      f2 startN 0 st st' hcl
    rcases hde1 : search { cfg with trackRecursion := b1 } endN cutoff f2
        startN 0 st with _ | ⟨res, st2⟩
    · rcases hde2 : search { cfg with trackRecursion := b2 } endN cutoff f2
          startN 0 st' with _ | ⟨res2, st2'⟩
      · simp
      · rw [hde1, hde2] at hmap; simp at hmap
    · rcases hde2 : search { cfg with trackRecursion := b2 } endN cutoff f2
          startN 0 st' with _ | ⟨res2, st2'⟩
      · rw [hde1, hde2] at hmap; simp at hmap
      · rw [hde1, hde2] at hmap
        simp at hmap
        obtain ⟨hres, hclk⟩ := hmap
        subst hres
        cases res with
        | found r => simp [hclk]
        | bound b =>
          dsimp only
          by_cases hb : b = ⊤
          · rw [if_pos hb, if_pos hb]; simp [hclk]
          · rw [if_neg hb, if_neg hb]
            exact ih _ _ _ _ hclk

/-- C9: a `findPath` call with recursion tracking enabled returns exactly
the same path as an otherwise identically configured call with tracking
disabled: the instrumentation bookkeeping never influences pruning or
path selection (it does not even change the visited-node count). -/
theorem c9_instrumentation_noninterference (cfg : IDAStarFinder α)
    (b1 b2 : Bool) (sx sy ex ey : Int) (f1 f2 : Nat) :
    (findPath { cfg with trackRecursion := b1 } sx sy ex ey f1 f2).map
        Prod.fst =
    (findPath { cfg with trackRecursion := b2 } sx sy ex ey f1 f2).map
        Prod.fst := by
  have hmap := @findPathAux_track_irrel α _ cfg b1 b2
    (cfg.getNodeAt ex ey) f2 f1 (cfg.getNodeAt sx sy)
    (initialCutoff cfg (cfg.getNodeAt sx sy) (cfg.getNodeAt ex ey))
    ⟨0, fun _ => (0, false)⟩ ⟨0, fun _ => (0, false)⟩ rfl
  have hcomp := congrArg (Option.map (fun q : List Node × Nat => q.1)) hmap
  simpa [findPath, Option.map_map, Function.comp] using hcomp

/-! ### Soundness of a found route (shared by C3 and C4) -/

theorem searchNbrs_found_sound {cfg : IDAStarFinder α} {endN node : Node}
    {g cutoff : α}
    {deeper : Node → α → SState → Option (SRes α × SState)}
    (hd : ∀ nb g1 st1 r st2, deeper nb g1 st1 = some (.found r, st2) →
      r.head? = some nb ∧ r.getLast? = some endN ∧ ValidSteps cfg r ∧
        g1 + pathCost cfg r ≤ cutoff) :
    ∀ (l : List Node) (minB : WithTop α) (st : SState) (r : List Node)
      (st2 : SState), (∀ x, x ∈ l → x ∈ cfg.getNeighbors node) →
      searchNbrs cfg node g deeper l minB st = some (.found r, st2) →
      r.head? = some node ∧ r.getLast? = some endN ∧ ValidSteps cfg r ∧
        g + pathCost cfg r ≤ cutoff := by
  intro l
  induction l with
  | nil => intro minB st r st2 _ h; simp [searchNbrs] at h
  | cons nb rest ih =>
    intro minB st r st2 hsub h
    simp only [searchNbrs] at h
    split at h
    · exact absurd h (by simp)
    · rename_i r1 st3 hde
      simp only [Option.some.injEq, Prod.mk.injEq, SRes.found.injEq] at h
      obtain ⟨hr, -⟩ := h
      obtain ⟨hh1, hl1, hs1, hc1⟩ := hd _ _ _ _ _ hde
      rcases r1 with _ | ⟨a, t⟩
      · simp at hh1
      · simp only [List.head?_cons, Option.some.injEq] at hh1
        subst hh1
        rw [← hr]
        refine ⟨rfl, ?_, ?_, ?_⟩
        · rw [List.getLast?_cons_cons]
          exact hl1
        · exact validSteps_cons.mpr ⟨hsub a (List.mem_cons_self a rest), hs1⟩
        · show g + (stepCost cfg node a + pathCost cfg (a :: t)) ≤ cutoff
          rw [← add_assoc]
          exact hc1
    · exact ih _ _ _ _ (fun x hx => hsub x (List.mem_cons_of_mem _ hx)) h

theorem search_found_sound {cfg : IDAStarFinder α} {endN : Node}
    {cutoff : α} (hge : 0 ≤ hF cfg endN endN * cfg.weight) :
    ∀ (fuel : Nat) (node : Node) (g : α) (st : SState) (r : List Node)
      (st2 : SState),
      search cfg endN cutoff fuel node g st = some (.found r, st2) →
      r.head? = some node ∧ r.getLast? = some endN ∧ ValidSteps cfg r ∧
        g + pathCost cfg r ≤ cutoff := by
  intro fuel
  induction fuel with
  | zero => intro node g st r st2 h; simp [search] at h
  | succ fuel ih =>
    intro node g st r st2 h
    simp only [search] at h
    split at h
    · exact absurd h (by simp)
    · split at h
      · exact absurd h (by simp)
      · split at h
        · rename_i hpr hgoal
          simp only [Option.some.injEq, Prod.mk.injEq, SRes.found.injEq] at h
          obtain ⟨hr, -⟩ := h
          subst hgoal
          rw [← hr]
          refine ⟨rfl, rfl, validSteps_singleton _ _, ?_⟩
          have h0 : pathCost cfg [node] = 0 := rfl
          rw [h0, add_zero]
          exact le_trans (le_add_of_nonneg_right hge) (not_lt.mp hpr)
        · exact searchNbrs_found_sound
            (fun nb g1 st1 r1 st3 hh => ih nb g1 st1 r1 st3 hh)
            _ _ _ _ _ (fun x hx => hx) h

/-! ### Any finite bound is dominated by the maximal prefix f-value of a
route to the goal -/

theorem maxF_head (cfg : IDAStarFinder α) (endN : Node) (g : α)
    (p : List Node) (v : Node) (h : p.head? = some v) :
    g + hF cfg v endN * cfg.weight ≤ maxF cfg endN g p := by
  rcases p with _ | ⟨a, t⟩
  · simp at h
  · simp only [List.head?_cons, Option.some.injEq] at h
    subst h
    rcases t with _ | ⟨b, t2⟩
    · simp [maxF]
    · simp only [maxF]
      exact le_max_left _ _

theorem maxF_cons_le (cfg : IDAStarFinder α) (endN : Node) (g : α)
    (v w : Node) (rest : List Node) :
    maxF cfg endN (g + stepCost cfg v w) (w :: rest) ≤
      maxF cfg endN g (v :: w :: rest) := by
  simp only [maxF]
  exact le_max_right _ _

theorem searchNbrs_minle {cfg : IDAStarFinder α} {node : Node} {g : α}
    {deeper : Node → α → SState → Option (SRes α × SState)} {T : α} :
    ∀ (l : List Node) (minB : WithTop α) (st : SState) (res : SRes α)
      (st2 : SState), minB ≤ (T : WithTop α) →
      searchNbrs cfg node g deeper l minB st = some (res, st2) →
      (∃ r, res = .found r) ∨
        ∃ b : α, res = .bound (b : WithTop α) ∧ b ≤ T := by
  intro l
  induction l with
  | nil =>
    intro minB st res st2 hmin h
    simp only [searchNbrs, Option.some.injEq, Prod.mk.injEq] at h
    obtain ⟨b0, hb0, hle⟩ := WithTop.le_coe_iff.mp hmin
    exact Or.inr ⟨b0, by rw [← h.1, hb0], hle⟩
  | cons nb rest ih =>
    intro minB st res st2 hmin h
    simp only [searchNbrs] at h
    split at h
    · exact absurd h (by simp)
    · rename_i r1 st3 hde
      simp only [Option.some.injEq, Prod.mk.injEq] at h
      exact Or.inl ⟨node :: r1, h.1.symm⟩
    · rename_i b1 st3 hde
      refine ih _ _ _ _ ?_ h
      by_cases hlt : b1 < minB
      · rw [if_pos hlt]
        exact le_trans (le_of_lt hlt) hmin
      · rw [if_neg hlt]
        exact hmin

theorem searchNbrs_mem {cfg : IDAStarFinder α} {node : Node} {g : α}
    {deeper : Node → α → SState → Option (SRes α × SState)} {T : α}
    {v1 : Node}
    (hv : ∀ st1 res st3,
      deeper v1 (g + stepCost cfg node v1) st1 = some (res, st3) →
      (∃ r, res = .found r) ∨
        ∃ b : α, res = .bound (b : WithTop α) ∧ b ≤ T) :
    ∀ (l : List Node) (minB : WithTop α) (st : SState) (res : SRes α)
      (st2 : SState), v1 ∈ l →
      searchNbrs cfg node g deeper l minB st = some (res, st2) →
      (∃ r, res = .found r) ∨
        ∃ b : α, res = .bound (b : WithTop α) ∧ b ≤ T := by
  intro l
  induction l with
  | nil => intro minB st res st2 hmem _; simp at hmem
  | cons nb rest ih =>
    intro minB st res st2 hmem h
    simp only [searchNbrs] at h
    split at h
    · exact absurd h (by simp)
    · rename_i r1 st3 hde
      simp only [Option.some.injEq, Prod.mk.injEq] at h
      exact Or.inl ⟨node :: r1, h.1.symm⟩
    · rename_i b1 st3 hde
      rcases List.mem_cons.mp hmem with hv1 | hrest
      · subst hv1
        rcases hv _ _ _ hde with ⟨r, hr⟩ | ⟨b0, hb0, hle⟩
        · exact absurd hr (by simp)
        · have hb1 : b1 = (b0 : WithTop α) := by
            simpa using hb0
          refine searchNbrs_minle _ _ _ _ _ ?_ h
          by_cases hlt : b1 < minB
          · rw [if_pos hlt, hb1]
            exact WithTop.coe_le_coe.mpr hle
          · rw [if_neg hlt]
            calc minB ≤ b1 := not_lt.mp hlt
            _ = (b0 : WithTop α) := hb1
            _ ≤ (T : WithTop α) := WithTop.coe_le_coe.mpr hle
      · exact ih _ _ _ _ hrest h

theorem search_reach {cfg : IDAStarFinder α} {endN : Node} {cutoff : α}
    (hnx : ∀ c, timeExpired cfg c = false) :
    ∀ (fuel : Nat) (node : Node) (g : α) (st : SState) (res : SRes α)
      (st2 : SState) (p : List Node),
      ValidPath cfg node endN p →
      search cfg endN cutoff fuel node g st = some (res, st2) →
      (∃ r, res = .found r) ∨
        ∃ b : α, res = .bound (b : WithTop α) ∧ b ≤ maxF cfg endN g p := by
  intro fuel
  induction fuel with
  | zero => intro node g st res st2 p _ h; simp [search] at h
  | succ fuel ih =>
    intro node g st res st2 p hp h
    simp only [search] at h
    split at h
    · rename_i hexp
      rw [hnx] at hexp
      exact absurd hexp (by simp)
    · split at h
      · rename_i hpr
        simp only [Option.some.injEq, Prod.mk.injEq] at h
        refine Or.inr ⟨g + hF cfg node endN * cfg.weight, h.1.symm, ?_⟩
        exact maxF_head cfg endN g p node hp.1
      · split at h
        · simp only [Option.some.injEq, Prod.mk.injEq] at h
          exact Or.inl ⟨[node], h.1.symm⟩
        · rename_i hpr hgoal
          obtain ⟨hh, hl, hs⟩ := hp
          rcases p with _ | ⟨a, t⟩
          · simp at hh
          · simp only [List.head?_cons, Option.some.injEq] at hh
            subst hh
            rcases t with _ | ⟨v1, t2⟩
            · simp only [List.getLast?_singleton, Option.some.injEq] at hl
              exact absurd hl hgoal
            · have hmem : v1 ∈ cfg.getNeighbors a := (validSteps_cons.mp hs).1
              have htail : ValidPath cfg v1 endN (v1 :: t2) :=
                ⟨rfl, by simpa [List.getLast?_cons_cons] using hl,
                  (validSteps_cons.mp hs).2⟩
              have hv : ∀ (st1 : SState) (res1 : SRes α) (st3 : SState),
                  (fun nb g1 st2 => search cfg endN cutoff fuel nb g1 st2) v1
                    (g + stepCost cfg a v1) st1 = some (res1, st3) →
                  (∃ r, res1 = .found r) ∨
                    ∃ b : α, res1 = .bound (b : WithTop α) ∧
                      b ≤ maxF cfg endN (g + stepCost cfg a v1) (v1 :: t2) :=
                fun st1 res1 st3 hh =>
                  ih v1 _ st1 res1 st3 (v1 :: t2) htail hh
              have hT := searchNbrs_mem hv _ _ _ _ _ hmem h
              rcases hT with hfound | ⟨b0, hb0, hle⟩
              · exact Or.inl hfound
              · exact Or.inr ⟨b0, hb0,
                  le_trans hle (maxF_cons_le cfg endN g a v1 t2)⟩

/-! ### C3: optimality at weight 1 with an admissible heuristic -/

theorem maxF_le_of_admissible {cfg : IDAStarFinder α} {endN : Node}
    (hadm : Admissible cfg endN) (hw : cfg.weight = 1) :
    ∀ (p : List Node) (v : Node) (g : α), ValidPath cfg v endN p →
      maxF cfg endN g p ≤ g + pathCost cfg p := by
  intro p
  induction p with
  | nil =>
    intro v g hp
    obtain ⟨hh, -, -⟩ := hp
    simp at hh
  | cons a t ih =>
    intro v g hp
    obtain ⟨hh, hl, hs⟩ := hp
    rcases t with _ | ⟨w, t2⟩
    · have hva : ValidPath cfg a endN [a] :=
        ⟨rfl, hl, validSteps_singleton _ _⟩
      have hle := hadm a [a] hva
      have hp0 : pathCost cfg [a] = 0 := rfl
      simp only [maxF, hw, mul_one, hp0]
      rw [hp0] at hle
      exact add_le_add_left hle g
    · have htail : ValidPath cfg w endN (w :: t2) :=
        ⟨rfl, by simpa [List.getLast?_cons_cons] using hl,
          (validSteps_cons.mp hs).2⟩
      simp only [maxF, hw, mul_one]
      apply max_le
      · have hva : ValidPath cfg a endN (a :: w :: t2) := ⟨rfl, hl, hs⟩
        exact add_le_add_left (hadm a _ hva) g
      · calc maxF cfg endN (g + stepCost cfg a w) (w :: t2)
            ≤ g + stepCost cfg a w + pathCost cfg (w :: t2) :=
              ih w (g + stepCost cfg a w) htail
          _ = g + pathCost cfg (a :: w :: t2) := by
              show g + stepCost cfg a w + pathCost cfg (w :: t2) =
                g + (stepCost cfg a w + pathCost cfg (w :: t2))
              rw [add_assoc]

theorem findPathAux_optimal {cfg : IDAStarFinder α} {endN : Node} {f2 : Nat}
    (hnx : ∀ c, timeExpired cfg c = false) (hadm : Admissible cfg endN)
    (hw : cfg.weight = 1) (hnn : ∀ d1 d2, 0 ≤ cfg.heuristic d1 d2) :
    ∀ (f1 : Nat) (startN : Node) (cutoff : α) (st : SState)
      (route : List Node) (st2 : SState) (p0 : List Node),
      ValidPath cfg startN endN p0 →
      (∀ p, ValidPath cfg startN endN p → cutoff ≤ pathCost cfg p) →
      findPathAux cfg endN f2 f1 startN cutoff st = some (route, st2) →
      ValidPath cfg startN endN route ∧
        ∀ p, ValidPath cfg startN endN p →
          pathCost cfg route ≤ pathCost cfg p := by
  intro f1
  induction f1 with
  | zero =>
    intro startN cutoff st route st2 p0 _ _ h
    simp [findPathAux] at h
  | succ f1 ih =>
    intro startN cutoff st route st2 p0 hp0 hcut h
    simp only [findPathAux] at h
    split at h
    · exact absurd h (by simp)
    · rename_i r st1 hs
      simp only [Option.some.injEq, Prod.mk.injEq] at h
      obtain ⟨hr, -⟩ := h
      rw [← hr]
      have hge : 0 ≤ hF cfg endN endN * cfg.weight := by
        rw [hw, mul_one]; exact hnn _ _
      obtain ⟨hh, hl, hsteps, hcost⟩ :=
        search_found_sound hge f2 startN 0 st r st1 hs
      refine ⟨⟨hh, hl, hsteps⟩, fun p hp => ?_⟩
      rw [zero_add] at hcost
      exact le_trans hcost (hcut p hp)
    · rename_i b st1 hs
      rcases search_reach hnx f2 startN 0 st (.bound b) st1 p0 hp0 hs with
        ⟨r, hr⟩ | ⟨b0, hb0, -⟩
      · exact absurd hr (by simp)
      · have hbb : b = (b0 : WithTop α) := by simpa using hb0
        subst hbb
        rw [if_neg WithTop.coe_ne_top, WithTop.untop'_coe] at h
        have hcut2 : ∀ p, ValidPath cfg startN endN p →
            b0 ≤ pathCost cfg p := by
          intro p hp
          rcases search_reach hnx f2 startN 0 st (.bound (b0 : WithTop α))
              st1 p hp hs with ⟨r, hr⟩ | ⟨b1, hb1, hle1⟩
          · exact absurd hr (by simp)
          · have hb01 : b0 = b1 := by simpa using hb1
            subst hb01
            calc b0 ≤ maxF cfg endN 0 p := hle1
              _ ≤ 0 + pathCost cfg p :=
                maxF_le_of_admissible hadm hw p startN 0 hp
              _ = pathCost cfg p := zero_add _
        exact ih startN b0 st1 route st2 p0 hp0 hcut2 h

/-- C3: with weight 1 and an admissible heuristic (and the time check
never firing), any path returned by `findPath` for a reachable pair is a
valid route from start to goal whose total cost is less than or equal to
the cost of every valid route — that is, it attains the minimum achievable
path cost. -/
theorem c3_weight_one_admissible_optimal (cfg : IDAStarFinder α)
    (sx sy ex ey : Int) (f1 f2 : Nat) (route : List Node) (st : SState)
    (hnx : ∀ c, timeExpired cfg c = false)
    (hw : cfg.weight = 1)
    (hnn : ∀ d1 d2, 0 ≤ cfg.heuristic d1 d2)
    (hadm : Admissible cfg (cfg.getNodeAt ex ey))
    (hreach : ∃ p, ValidPath cfg (cfg.getNodeAt sx sy)
      (cfg.getNodeAt ex ey) p)
    (hrun : findPath cfg sx sy ex ey f1 f2 = some (route, st)) :
    ValidPath cfg (cfg.getNodeAt sx sy) (cfg.getNodeAt ex ey) route ∧
      ∀ p, ValidPath cfg (cfg.getNodeAt sx sy) (cfg.getNodeAt ex ey) p →
        pathCost cfg route ≤ pathCost cfg p := by
  obtain ⟨p0, hp0⟩ := hreach
  simp only [findPath] at hrun
  exact findPathAux_optimal hnx hadm hw hnn f1 _ _ _ _ _ p0 hp0
    (fun p hp => hadm _ _ hp) hrun

/-- A consistent heuristic (zero at the goal, and dropping by at most the
step cost along every edge) is admissible. -/
theorem admissible_of_consistent (cfg : IDAStarFinder α) (endN : Node)
    (hend : hF cfg endN endN ≤ 0)
    (hcons : ∀ v w, w ∈ cfg.getNeighbors v →
      hF cfg v endN ≤ stepCost cfg v w + hF cfg w endN) :
    Admissible cfg endN := by
  intro v p
  induction p generalizing v with
  | nil => intro hp; obtain ⟨hh, -, -⟩ := hp; simp at hh
  | cons a t ih =>
    intro hp
    obtain ⟨hh, hl, hs⟩ := hp
    simp only [List.head?_cons, Option.some.injEq] at hh
    rcases t with _ | ⟨w, t2⟩
    · simp only [List.getLast?_singleton, Option.some.injEq] at hl
      rw [← hh, hl]
      have hp0 : pathCost cfg [endN] = 0 := rfl
      rw [hp0]
      exact hend
    · have hmem : w ∈ cfg.getNeighbors a := (validSteps_cons.mp hs).1
      have htail : ValidPath cfg w endN (w :: t2) :=
        ⟨rfl, by simpa [List.getLast?_cons_cons] using hl,
          (validSteps_cons.mp hs).2⟩
      rw [← hh]
      calc hF cfg a endN ≤ stepCost cfg a w + hF cfg w endN :=
            hcons a w hmem
        _ ≤ stepCost cfg a w + pathCost cfg (w :: t2) :=
            add_le_add_left (ih w htail) _
        _ = pathCost cfg (a :: w :: t2) := rfl

theorem c3_witness :
    ValidPath baseCfg ⟨0, 0⟩ ⟨1, 0⟩ [⟨0, 0⟩, ⟨1, 0⟩] ∧
      pathCost baseCfg [⟨0, 0⟩, ⟨1, 0⟩] ≤
        pathCost baseCfg [⟨0, 0⟩, ⟨1, 0⟩, ⟨0, 0⟩, ⟨1, 0⟩] := by
  have hadm : Admissible baseCfg ⟨1, 0⟩ := by
    refine admissible_of_consistent baseCfg ⟨1, 0⟩ (by decide) ?_
    intro v w hmem
    by_cases hv0 : v = ⟨0, 0⟩
    · subst hv0
      have hw2 : w = ⟨1, 0⟩ := by
        simpa [baseCfg, gridAB] using hmem
      subst hw2
      decide
    · by_cases hv1 : v = ⟨1, 0⟩
      · subst hv1
        have hw2 : w = ⟨0, 0⟩ := by
          simpa [baseCfg, gridAB, hv0] using hmem
        subst hw2
        decide
      · exact absurd hmem (by simp [baseCfg, gridAB, hv0, hv1])
  have h := c3_weight_one_admissible_optimal baseCfg 0 0 1 0 5 5
    [⟨0, 0⟩, ⟨1, 0⟩] ⟨2, fun _ => (0, false)⟩ (fun _ => rfl) rfl
    (fun d1 d2 => add_nonneg (Int.natCast_nonneg d1) (Int.natCast_nonneg d2))
    hadm ⟨[⟨0, 0⟩, ⟨1, 0⟩], by decide⟩ rfl
  exact ⟨h.1, h.2 [⟨0, 0⟩, ⟨1, 0⟩, ⟨0, 0⟩, ⟨1, 0⟩] (by decide)⟩

/-! ### C5: an unreachable goal makes the sweep loop run forever -/

theorem searchNbrs_single_none {cfg : IDAStarFinder α} {node nb : Node}
    {g : α} {deeper : Node → α → SState → Option (SRes α × SState)}
    {st : SState} (htrk : cfg.trackRecursion = false)
    (h : deeper nb (g + stepCost cfg node nb) st = none) :
    searchNbrs cfg node g deeper [nb] ⊤ st = none := by
  simp only [searchNbrs, htrk, Bool.false_eq_true, if_false]
  rw [h]

theorem searchNbrs_single_bound {cfg : IDAStarFinder α} {node nb : Node}
    {g : α} {deeper : Node → α → SState → Option (SRes α × SState)}
    {st st2 : SState} {b0 : α} (htrk : cfg.trackRecursion = false)
    (h : deeper nb (g + stepCost cfg node nb) st =
      some (.bound (b0 : WithTop α), st2)) :
    searchNbrs cfg node g deeper [nb] ⊤ st =
      some (.bound (b0 : WithTop α), st2) := by
  simp only [searchNbrs, htrk, Bool.false_eq_true, if_false]
  rw [h]
  simp [searchNbrs, htrk, WithTop.coe_lt_top]

theorem c5_search_shape :
    ∀ (fuel : Nat) (node : Node) (g c : ℤ) (st : SState),
      (node = ⟨0, 0⟩ ∨ node = ⟨1, 0⟩) →
      search baseCfg ⟨9, 9⟩ c fuel node g st = none ∨
        ∃ (b : ℤ) (st2 : SState),
          search baseCfg ⟨9, 9⟩ c fuel node g st =
            some (.bound (b : WithTop ℤ), st2) := by
  have hnx : ∀ cc, timeExpired baseCfg cc = false := fun _ => rfl
  have htrk : baseCfg.trackRecursion = false := rfl
  intro fuel
  induction fuel with
  | zero => intro node g c st _; exact Or.inl rfl
  | succ fuel ih =>
    intro node g c st hmem
    by_cases hpr : c < g + hF baseCfg node ⟨9, 9⟩ * baseCfg.weight
    · right
      refine ⟨g + hF baseCfg node ⟨9, 9⟩ * baseCfg.weight,
        ⟨st.clock + 1, st.instr⟩, ?_⟩
      simp only [search]
      rw [if_neg (by simp [hnx]), if_pos hpr]
    · rcases hmem with rfl | rfl
      · have hgoal : ¬ ((⟨0, 0⟩ : Node) = ⟨9, 9⟩) := by decide
        have hn : baseCfg.getNeighbors ⟨0, 0⟩ = [⟨1, 0⟩] := by decide
        simp only [search]
        rw [if_neg (by simp [hnx]), if_neg hpr, if_neg hgoal, hn]
        rcases ih ⟨1, 0⟩ (g + stepCost baseCfg ⟨0, 0⟩ ⟨1, 0⟩) c
            ⟨st.clock + 1, st.instr⟩ (Or.inr rfl) with hn2 | ⟨b2, st2, hs2⟩
        · exact Or.inl (searchNbrs_single_none htrk hn2)
        · exact Or.inr ⟨b2, st2, searchNbrs_single_bound htrk hs2⟩
      · have hgoal : ¬ ((⟨1, 0⟩ : Node) = ⟨9, 9⟩) := by decide
        have hn : baseCfg.getNeighbors ⟨1, 0⟩ = [⟨0, 0⟩] := by decide
        simp only [search]
        rw [if_neg (by simp [hnx]), if_neg hpr, if_neg hgoal, hn]
        rcases ih ⟨0, 0⟩ (g + stepCost baseCfg ⟨1, 0⟩ ⟨0, 0⟩) c
            ⟨st.clock + 1, st.instr⟩ (Or.inl rfl) with hn2 | ⟨b2, st2, hs2⟩
        · exact Or.inl (searchNbrs_single_none htrk hn2)
        · exact Or.inr ⟨b2, st2, searchNbrs_single_bound htrk hs2⟩

theorem c5_aux :
    ∀ (f1 : Nat) (c : ℤ) (st : SState) (f2 : Nat),
      findPathAux baseCfg ⟨9, 9⟩ f2 f1 ⟨0, 0⟩ c st = none := by
  intro f1
  induction f1 with
  | zero => intro c st f2; rfl
  | succ f1 ih =>
    intro c st f2
    rcases c5_search_shape f2 ⟨0, 0⟩ 0 c st (Or.inl rfl) with hn | ⟨b, st2, hs⟩
    · simp only [findPathAux]
      rw [hn]
    · rw [findPathAux_step_bound hs f1]
      exact ih _ _ _

theorem gridAB_closed :
    ∀ (p : List Node) (v : Node), (v = ⟨0, 0⟩ ∨ v = ⟨1, 0⟩) →
      p.head? = some v → ValidSteps baseCfg p →
      ∀ w, p.getLast? = some w → (w = ⟨0, 0⟩ ∨ w = ⟨1, 0⟩) := by
  intro p
  induction p with
  | nil => intro v _ hh; simp at hh
  | cons a t ih =>
    intro v hv hh hs w hl
    simp only [List.head?_cons, Option.some.injEq] at hh
    rcases t with _ | ⟨b, t2⟩
    · simp only [List.getLast?_singleton, Option.some.injEq] at hl
      rw [← hl, hh]
      exact hv
    · have hmem : b ∈ baseCfg.getNeighbors a := (validSteps_cons.mp hs).1
      have hb : b = ⟨0, 0⟩ ∨ b = ⟨1, 0⟩ := by
        rcases hv with h0 | h0 <;> rw [← hh] at h0 <;> subst h0
        · right
          simpa [baseCfg, gridAB] using hmem
        · left
          simpa [baseCfg, gridAB] using hmem
      exact ih b hb rfl (validSteps_cons.mp hs).2 w
        (by simpa [List.getLast?_cons_cons] using hl)

/-- C5 (code bug): on the two-cell grid the goal `(9,9)` is unreachable
from `(0,0)`, yet with no time limit `findPath` never terminates: every
sweep returns a finite escalated bound (the search walks back and forth
between the two cells until pruned), so for every amount of fuel the
embedded loop is still running — the claimed "terminates and returns an
empty Path" never happens. -/
theorem c5_unreachable_diverges :
    (¬ ∃ p, ValidPath baseCfg ⟨0, 0⟩ ⟨9, 9⟩ p) ∧
    ∀ f1 f2 : Nat, findPath baseCfg 0 0 9 9 f1 f2 = none := by
  constructor
  · rintro ⟨p, hh, hl, hs⟩
    rcases gridAB_closed p ⟨0, 0⟩ (Or.inl rfl) hh hs ⟨9, 9⟩ hl with h | h <;>
      exact absurd h (by decide)
  · intro f1 f2
    show findPathAux baseCfg (baseCfg.getNodeAt 9 9) f2 f1
      (baseCfg.getNodeAt 0 0) _ _ = none
    exact c5_aux f1 _ _ f2

/-! ### C4: fuel sufficiency — with enough fuel a sweep never runs out -/

theorem searchNbrs_some {cfg : IDAStarFinder α} {node : Node} {g : α}
    {deeper : Node → α → SState → Option (SRes α × SState)}
    (hd : ∀ nb st1, deeper nb (g + stepCost cfg node nb) st1 ≠ none) :
    ∀ (l : List Node) (minB : WithTop α) (st : SState),
      searchNbrs cfg node g deeper l minB st ≠ none := by
  intro l
  induction l with
  | nil => intro minB st h; simp [searchNbrs] at h
  | cons nb rest ih =>
    intro minB st h
    simp only [searchNbrs] at h
    split at h
    · rename_i hde
      exact hd _ _ hde
    · exact absurd h (by simp)
    · exact ih _ _ h

theorem stepCost_ge_one {cfg : IDAStarFinder α} (hsq : 1 ≤ cfg.sqrt2)
    (a b : Node) : 1 ≤ stepCost cfg a b := by
  unfold stepCost
  split
  · exact le_refl 1
  · exact hsq

theorem search_some {cfg : IDAStarFinder α} {endN : Node} {cutoff : α}
    (hnn : ∀ d1 d2, 0 ≤ cfg.heuristic d1 d2) (hw0 : 0 ≤ cfg.weight)
    (hsq : 1 ≤ cfg.sqrt2) :
    ∀ (fuel : Nat) (node : Node) (g : α) (st : SState), 1 ≤ fuel →
      cutoff < g + ((fuel - 1 : Nat) : α) →
      search cfg endN cutoff fuel node g st ≠ none := by
  intro fuel
  induction fuel with
  | zero => intro node g st h1; exact absurd h1 (by simp)
  | succ fuel ih =>
    intro node g st _ hcut h
    simp only [search] at h
    split at h
    · exact absurd h (by simp)
    · split at h
      · exact absurd h (by simp)
      · split at h
        · exact absurd h (by simp)
        · rename_i hpr hgoal
          rcases fuel with _ | fuel
          · -- one unit of fuel: the prune test must have fired
            refine hpr ?_
            have hge : 0 ≤ hF cfg node endN * cfg.weight :=
              mul_nonneg (hnn _ _) hw0
            have : cutoff < g := by simpa using hcut
            exact lt_of_lt_of_le this (le_add_of_nonneg_right hge)
          · refine searchNbrs_some (fun nb st1 => ?_) _ _ _ h
            refine ih nb (g + stepCost cfg node nb) st1 (by simp) ?_
            have hstep : (1 : α) ≤ stepCost cfg node nb :=
              stepCost_ge_one hsq node nb
            have hcast : ((fuel + 1 + 1 - 1 : Nat) : α) =
                ((fuel + 1 - 1 : Nat) : α) + 1 := by
              push_cast
              ring
            rw [hcast] at hcut
            calc cutoff < g + (((fuel + 1 - 1 : Nat) : α) + 1) := hcut
              _ = g + 1 + ((fuel + 1 - 1 : Nat) : α) := by ring
              _ ≤ g + stepCost cfg node nb + ((fuel + 1 - 1 : Nat) : α) := by
                  exact add_le_add_right (add_le_add_left hstep g) _

/-! ### C4: provenance — every finite bound is the f-value of some
walk from the start -/

theorem revPath_ne_nil {cfg : IDAStarFinder α} {s : Node} {r : List Node}
    (h : RevPath cfg s r) : r ≠ [] := by
  intro hr
  rw [hr] at h
  simp [RevPath] at h

theorem revPath_extend {cfg : IDAStarFinder α} {s : Node} {r : List Node}
    {node nb : Node} (h : RevPath cfg s r) (hh : r.headI = node)
    (hmem : nb ∈ cfg.getNeighbors node) : RevPath cfg s (nb :: r) := by
  obtain ⟨hl, hc⟩ := h
  rcases r with _ | ⟨a, t⟩
  · simp at hl
  · have ha : a = node := hh
    refine ⟨?_, ?_⟩
    · rw [List.getLast?_cons_cons]
      exact hl
    · refine List.chain'_cons.mpr ⟨?_, hc⟩
      rw [ha]
      exact hmem

theorem pathCost_rev_extend {cfg : IDAStarFinder α} {r : List Node}
    {node : Node} (nb : Node) (hne : r ≠ []) (hh : r.headI = node) :
    pathCost cfg (nb :: r) = stepCost cfg node nb + pathCost cfg r := by
  rcases r with _ | ⟨a, t⟩
  · exact absurd rfl hne
  · have ha : a = node := hh
    show stepCost cfg nb a + pathCost cfg (a :: t) = _
    rw [ha, stepCost_comm]

theorem searchNbrs_prov {cfg : IDAStarFinder α} {endN startN node : Node}
    {g : α} {deeper : Node → α → SState → Option (SRes α × SState)} {L : Nat}
    (hd : ∀ (nb : Node) (st1 : SState) (b1 : α) (st3 : SState),
      nb ∈ cfg.getNeighbors node →
      deeper nb (g + stepCost cfg node nb) st1 =
        some (.bound (b1 : WithTop α), st3) →
      ∃ r2, RevPath cfg startN r2 ∧ r2.length ≤ L ∧
        pathCost cfg r2 + hF cfg r2.headI endN * cfg.weight = b1) :
    ∀ (l : List Node) (minB : WithTop α) (st : SState) (b0 : α)
      (st2 : SState), (∀ x ∈ l, x ∈ cfg.getNeighbors node) →
      (minB = ⊤ ∨ ∃ b1 : α, minB = (b1 : WithTop α) ∧
        ∃ r2, RevPath cfg startN r2 ∧ r2.length ≤ L ∧
          pathCost cfg r2 + hF cfg r2.headI endN * cfg.weight = b1) →
      searchNbrs cfg node g deeper l minB st =
        some (.bound (b0 : WithTop α), st2) →
      ∃ r2, RevPath cfg startN r2 ∧ r2.length ≤ L ∧
        pathCost cfg r2 + hF cfg r2.headI endN * cfg.weight = b0 := by
  intro l
  induction l with
  | nil =>
    intro minB st b0 st2 _ hminB h
    simp only [searchNbrs, Option.some.injEq, Prod.mk.injEq,
      SRes.bound.injEq] at h
    rcases hminB with htop | ⟨b1, hb1, hr2⟩
    · rw [htop] at h
      exact absurd h.1 (by simp)
    · rw [hb1] at h
      have hbb : b1 = b0 := by simpa using h.1
      exact hbb ▸ hr2
  | cons nb rest ih =>
    intro minB st b0 st2 hsub hminB h
    simp only [searchNbrs] at h
    split at h
    · exact absurd h (by simp)
    · exact absurd h (by simp)
    · rename_i b1 st3 hde
      by_cases hb1top : b1 = ⊤
      · rw [hb1top, if_neg not_top_lt] at h
        exact ih _ _ _ _ (fun x hx => hsub x (List.mem_cons_of_mem _ hx))
          hminB h
      · obtain ⟨b1', rfl⟩ := WithTop.ne_top_iff_exists.mp hb1top
        have hchild := hd nb _ b1' _
          (hsub nb (List.mem_cons_self nb rest)) hde
        by_cases hlt : (b1' : WithTop α) < minB
        · rw [if_pos hlt] at h
          exact ih _ _ _ _ (fun x hx => hsub x (List.mem_cons_of_mem _ hx))
            (Or.inr ⟨b1', rfl, hchild⟩) h
        · rw [if_neg hlt] at h
          exact ih _ _ _ _ (fun x hx => hsub x (List.mem_cons_of_mem _ hx))
            hminB h

theorem search_prov {cfg : IDAStarFinder α} {endN startN : Node}
    {cutoff : α} (hnx : ∀ c, timeExpired cfg c = false) :
    ∀ (fuel : Nat) (node : Node) (g : α) (st : SState) (b0 : α)
      (st2 : SState) (r : List Node),
      RevPath cfg startN r → r.headI = node → pathCost cfg r = g →
      search cfg endN cutoff fuel node g st =
        some (.bound (b0 : WithTop α), st2) →
      ∃ r2, RevPath cfg startN r2 ∧ r2.length ≤ r.length + fuel ∧
        pathCost cfg r2 + hF cfg r2.headI endN * cfg.weight = b0 := by
  intro fuel
  induction fuel with
  | zero => intro node g st b0 st2 r _ _ _ h; simp [search] at h
  | succ fuel ih =>
    intro node g st b0 st2 r hrev hhead hcost h
    simp only [search] at h
    split at h
    · rename_i hexp
      rw [hnx] at hexp
      exact absurd hexp (by simp)
    · split at h
      · simp only [Option.some.injEq, Prod.mk.injEq, SRes.bound.injEq] at h
        refine ⟨r, hrev, Nat.le_add_right _ _, ?_⟩
        rw [hhead, hcost]
        exact WithTop.coe_injective h.1
      · split at h
        · exact absurd h (by simp)
        · refine searchNbrs_prov ?_ _ _ _ _ _
            (fun x hx => hx) (Or.inl rfl) h
          intro nb st1 b1 st3 hmem hde
          have hrev2 := revPath_extend hrev hhead hmem
          have hcost2 : pathCost cfg (nb :: r) = g + stepCost cfg node nb := by
            rw [pathCost_rev_extend nb (revPath_ne_nil hrev) hhead, hcost,
              add_comm]
          obtain ⟨r2, h1, h2, h3⟩ := ih nb (g + stepCost cfg node nb) st1 b1
            st3 (nb :: r) hrev2 rfl hcost2 hde
          refine ⟨r2, h1, ?_, h3⟩
          simp only [List.length_cons] at h2
          omega

theorem rpaths_mem (cfg : IDAStarFinder α) (s : Node) :
    ∀ (m : Nat) (r : List Node), RevPath cfg s r → r.length ≤ m + 1 →
      r ∈ rpaths cfg s m := by
  intro m
  induction m with
  | zero =>
    intro r hrev hlen
    obtain ⟨hl, -⟩ := hrev
    rcases r with _ | ⟨a, t⟩
    · simp at hl
    · rcases t with _ | ⟨b, t2⟩
      · simp only [List.getLast?_singleton, Option.some.injEq] at hl
        subst hl
        simp [rpaths]
      · simp at hlen
  | succ m ih =>
    intro r hrev hlen
    obtain ⟨hl, hc⟩ := hrev
    rcases r with _ | ⟨a, t⟩
    · simp at hl
    · rcases t with _ | ⟨b, t2⟩
      · have hsing : [a] ∈ rpaths cfg s m :=
          ih [a] ⟨hl, List.chain'_singleton _⟩ (by simp)
        simp only [rpaths, Finset.mem_union]
        exact Or.inl hsing
      · have htail : RevPath cfg s (b :: t2) :=
          ⟨by simpa [List.getLast?_cons_cons] using hl,
            (List.chain'_cons.mp hc).2⟩
        have hmem : a ∈ cfg.getNeighbors b := (List.chain'_cons.mp hc).1
        have htl : (b :: t2) ∈ rpaths cfg s m := by
          refine ih _ htail ?_
          simp only [List.length_cons] at hlen ⊢
          omega
        simp only [rpaths, Finset.mem_union]
        right
        rw [Finset.mem_biUnion]
        refine ⟨b :: t2, htl, ?_⟩
        rw [List.mem_toFinset]
        exact List.mem_map.mpr ⟨a, hmem, rfl⟩

/-! ### C4: the sweep loop succeeds after finitely many escalations -/

theorem findPathAux_success {cfg : IDAStarFinder α} {endN startN : Node}
    {N2 : Nat} {p0 : List Node}
    (hnx : ∀ c, timeExpired cfg c = false)
    (hnn : ∀ d1 d2, 0 ≤ cfg.heuristic d1 d2)
    (hw0 : 0 ≤ cfg.weight) (hsq : 1 ≤ cfg.sqrt2)
    (hp0 : ValidPath cfg startN endN p0) (hN1 : 1 ≤ N2)
    (hNM : ∀ c : α, c ≤ maxF cfg endN 0 p0 → c < ((N2 - 1 : Nat) : α)) :
    ∀ (k : Nat) (cutoff : α) (st : SState),
      cutoff ≤ maxF cfg endN 0 p0 →
      ((fvals cfg startN endN N2).filter (fun x => cutoff < x)).card ≤ k →
      ∃ route st2, findPathAux cfg endN N2 (k + 1) startN cutoff st =
        some (route, st2) := by
  intro k
  induction k with
  | zero =>
    intro cutoff st hcM hcard
    rcases hres : search cfg endN cutoff N2 startN 0 st with _ | ⟨res, st1⟩
    · exact absurd hres (search_some hnn hw0 hsq N2 startN 0 st hN1
        (by simpa using hNM cutoff hcM))
    · rcases search_reach hnx N2 startN 0 st res st1 p0 hp0 hres with
        ⟨r, hr⟩ | ⟨b0, hb0, hbM⟩
      · subst hr
        exact ⟨r, st1, findPathAux_step_found hres 0⟩
      · subst hb0
        have hrev0 : RevPath cfg startN [startN] :=
          ⟨rfl, List.chain'_singleton _⟩
        obtain ⟨r2, hrev2, hlen2, hfv2⟩ := search_prov hnx N2 startN 0 st b0
          st1 [startN] hrev0 rfl rfl hres
        have hmemF : b0 ∈ fvals cfg startN endN N2 := by
          rw [fvals, Finset.mem_image]
          exact ⟨r2, rpaths_mem cfg startN N2 r2 hrev2
            (by simpa [Nat.add_comm] using hlen2), hfv2⟩
        have hgt : cutoff < b0 :=
          WithTop.coe_lt_coe.mp (search_bound_gt N2 startN 0 st _ _ hres)
        have hpos : 0 < ((fvals cfg startN endN N2).filter
            (fun x => cutoff < x)).card :=
          Finset.card_pos.mpr ⟨b0, Finset.mem_filter.mpr ⟨hmemF, hgt⟩⟩
        omega
  | succ k ih =>
    intro cutoff st hcM hcard
    rcases hres : search cfg endN cutoff N2 startN 0 st with _ | ⟨res, st1⟩
    · exact absurd hres (search_some hnn hw0 hsq N2 startN 0 st hN1
        (by simpa using hNM cutoff hcM))
    · rcases search_reach hnx N2 startN 0 st res st1 p0 hp0 hres with
        ⟨r, hr⟩ | ⟨b0, hb0, hbM⟩
      · subst hr
        exact ⟨r, st1, findPathAux_step_found hres (k + 1)⟩
      · subst hb0
        have hrev0 : RevPath cfg startN [startN] :=
          ⟨rfl, List.chain'_singleton _⟩
        obtain ⟨r2, hrev2, hlen2, hfv2⟩ := search_prov hnx N2 startN 0 st b0
          st1 [startN] hrev0 rfl rfl hres
        have hmemF : b0 ∈ fvals cfg startN endN N2 := by
          rw [fvals, Finset.mem_image]
          exact ⟨r2, rpaths_mem cfg startN N2 r2 hrev2
            (by simpa [Nat.add_comm] using hlen2), hfv2⟩
        have hgt : cutoff < b0 :=
          WithTop.coe_lt_coe.mp (search_bound_gt N2 startN 0 st _ _ hres)
        have hsubset : (fvals cfg startN endN N2).filter (fun x => b0 < x) ⊆
            (fvals cfg startN endN N2).filter (fun x => cutoff < x) := by
          intro x hx
          rw [Finset.mem_filter] at hx ⊢
          exact ⟨hx.1, lt_trans hgt hx.2⟩
        have hss : (fvals cfg startN endN N2).filter (fun x => b0 < x) ⊂
            (fvals cfg startN endN N2).filter (fun x => cutoff < x) :=
          (Finset.ssubset_iff_of_subset hsubset).mpr
            ⟨b0, Finset.mem_filter.mpr ⟨hmemF, hgt⟩,
              fun hmem => absurd (Finset.mem_filter.mp hmem).2 (lt_irrefl b0)⟩
        have hlt := Finset.card_lt_card hss
        obtain ⟨route, st2, hdone⟩ := ih b0 st1 hbM (by omega)
        exact ⟨route, st2, by
          rw [findPathAux_step_bound hres (k + 1)]
          exact hdone⟩

theorem findPathAux_sound {cfg : IDAStarFinder α} {endN : Node} {f2 : Nat}
    (hnx : ∀ c, timeExpired cfg c = false)
    (hge : 0 ≤ hF cfg endN endN * cfg.weight) :
    ∀ (f1 : Nat) (startN : Node) (cutoff : α) (st : SState)
      (route : List Node) (st2 : SState) (p0 : List Node),
      ValidPath cfg startN endN p0 →
      findPathAux cfg endN f2 f1 startN cutoff st = some (route, st2) →
      route.head? = some startN ∧ route.getLast? = some endN ∧
        ValidSteps cfg route := by
  intro f1
  induction f1 with
  | zero =>
    intro startN cutoff st route st2 p0 _ h
    simp [findPathAux] at h
  | succ f1 ih =>
    intro startN cutoff st route st2 p0 hp0 h
    simp only [findPathAux] at h
    split at h
    · exact absurd h (by simp)
    · rename_i r st1 hs
      simp only [Option.some.injEq, Prod.mk.injEq] at h
      obtain ⟨hr, -⟩ := h
      rw [← hr]
      obtain ⟨hh, hl, hsteps, -⟩ := search_found_sound hge f2 startN 0 st r
        st1 hs
      exact ⟨hh, hl, hsteps⟩
    · rename_i b st1 hs
      rcases search_reach hnx f2 startN 0 st (.bound b) st1 p0 hp0 hs with
        ⟨r, hr⟩ | ⟨b0, hb0, -⟩
      · exact absurd hr (by simp)
      · have hbb : b = (b0 : WithTop α) := by simpa using hb0
        subst hbb
        rw [if_neg WithTop.coe_ne_top, WithTop.untop'_coe] at h
        exact ih startN b0 st1 route st2 p0 hp0 h

/-- C4: for a reachable (start, goal) pair — with the time check never
firing, a nonnegative heuristic, weight ≥ 1 and a diagonal step cost ≥ 1,
per the spec's caller obligations — some amount of fuel makes the
embedded `findPath` return a route, and every route it ever returns is
non-empty, starts at the start node, ends at the goal node, and each
consecutive pair steps to a neighbour under the configured policy. -/
theorem c4_reachable_route_valid (cfg : IDAStarFinder α) [Archimedean α]
    (sx sy ex ey : Int)
    (hnx : ∀ c, timeExpired cfg c = false)
    (hnn : ∀ d1 d2, 0 ≤ cfg.heuristic d1 d2)
    (hw1 : 1 ≤ cfg.weight) (hsq : 1 ≤ cfg.sqrt2)
    (hreach : ∃ p, ValidPath cfg (cfg.getNodeAt sx sy)
      (cfg.getNodeAt ex ey) p) :
    (∃ f1 f2 route st, findPath cfg sx sy ex ey f1 f2 = some (route, st)) ∧
    ∀ f1 f2 route st, findPath cfg sx sy ex ey f1 f2 = some (route, st) →
      route ≠ [] ∧ route.head? = some (cfg.getNodeAt sx sy) ∧
        route.getLast? = some (cfg.getNodeAt ex ey) ∧
        ValidSteps cfg route := by
  obtain ⟨p0, hp0⟩ := hreach
  have hw0 : (0 : α) ≤ cfg.weight := le_trans zero_le_one hw1
  constructor
  · obtain ⟨n, hn⟩ := exists_nat_ge
      (maxF cfg (cfg.getNodeAt ex ey) 0 p0 + 1)
    have hNM : ∀ c : α, c ≤ maxF cfg (cfg.getNodeAt ex ey) 0 p0 →
        c < ((n + 2 - 1 : Nat) : α) := by
      intro c hc
      have h1 : ((n + 2 - 1 : Nat) : α) = (n : α) + 1 := by
        push_cast
        ring
      rw [h1]
      calc c ≤ maxF cfg (cfg.getNodeAt ex ey) 0 p0 := hc
        _ < maxF cfg (cfg.getNodeAt ex ey) 0 p0 + 1 := lt_add_one _
        _ ≤ (n : α) := hn
        _ < (n : α) + 1 := lt_add_one _
    have hcut0 : initialCutoff cfg (cfg.getNodeAt sx sy)
        (cfg.getNodeAt ex ey) ≤ maxF cfg (cfg.getNodeAt ex ey) 0 p0 := by
      have h1 : hF cfg (cfg.getNodeAt sx sy) (cfg.getNodeAt ex ey) ≤
          hF cfg (cfg.getNodeAt sx sy) (cfg.getNodeAt ex ey) *
            cfg.weight :=
        le_mul_of_one_le_right (hnn _ _) hw1
      have h2 := maxF_head cfg (cfg.getNodeAt ex ey) 0 p0
        (cfg.getNodeAt sx sy) hp0.1
      rw [zero_add] at h2
      exact le_trans h1 h2
    obtain ⟨route, st2, hdone⟩ := findPathAux_success hnx hnn hw0 hsq hp0
      (by omega : 1 ≤ n + 2) hNM
      (((fvals cfg (cfg.getNodeAt sx sy) (cfg.getNodeAt ex ey)
        (n + 2)).filter (fun x => initialCutoff cfg (cfg.getNodeAt sx sy)
          (cfg.getNodeAt ex ey) < x)).card)
      (initialCutoff cfg (cfg.getNodeAt sx sy) (cfg.getNodeAt ex ey))
      ⟨0, fun _ => (0, false)⟩ hcut0 (le_refl _)
    exact ⟨_ + 1, n + 2, route, st2, hdone⟩
  · intro f1 f2 route st h
    have hge : 0 ≤ hF cfg (cfg.getNodeAt ex ey) (cfg.getNodeAt ex ey) *
        cfg.weight := mul_nonneg (hnn _ _) hw0
    simp only [findPath] at h
    obtain ⟨hh, hl, hsteps⟩ := findPathAux_sound hnx hge f1 _ _ _ _ _ p0
      hp0 h
    refine ⟨?_, hh, hl, hsteps⟩
    intro hnil
    rw [hnil] at hh
    simp at hh

theorem c4_witness :
    (∃ f1 f2 route st, findPath baseCfg 0 0 1 0 f1 f2 = some (route, st)) ∧
    [⟨0, 0⟩, ⟨1, 0⟩] ≠ ([] : List Node) ∧
      ([⟨0, 0⟩, ⟨1, 0⟩] : List Node).head? = some (baseCfg.getNodeAt 0 0) ∧
      ([⟨0, 0⟩, ⟨1, 0⟩] : List Node).getLast? =
        some (baseCfg.getNodeAt 1 0) ∧
      ValidSteps baseCfg [⟨0, 0⟩, ⟨1, 0⟩] := by
  have h := c4_reachable_route_valid baseCfg 0 0 1 0 (fun _ => rfl)
    (fun d1 d2 => add_nonneg (Int.natCast_nonneg d1) (Int.natCast_nonneg d2))
    (by decide) (by decide) ⟨[⟨0, 0⟩, ⟨1, 0⟩], by decide⟩
  exact ⟨h.1, h.2 5 5 [⟨0, 0⟩, ⟨1, 0⟩] ⟨2, fun _ => (0, false)⟩ rfl⟩
